import Mathlib

/-!
# certstream-monitor: a verification development

Shallow embedding of `certstream.go`.

Modelling conventions
* A Go `string` is a `List Char` (the sequence of its code points); `len(s) == 0`
  is `s = []`.
* `int64` values that are only stored and compared (`seen`, `first_seen`,
  `last_seen`) are `Int`; `time.Duration` arithmetic is done on `Int` nanoseconds
  wrapped to 64 bits.
* A `time.Time` is an `Int` count of nanoseconds since the Unix epoch, `Before`
  is `<` and `After` is `>`; `time.Unix(s, 0)` keeps its seconds as an `int64`
  counted from year 1, so it is `s * 10^9` only while `s + 62135596800` fits.
* Calls that leave the program (the public-suffix list, DNS, HTTP) and the
  Unicode case table above ASCII are parameters.
-/

namespace Certstream

/-! ## Machine integers -/

/-- Two's-complement wrap of an `int64` result. -/
def wrapInt64 (x : Int) : Int := (x + 2 ^ 63) % 2 ^ 64 - 2 ^ 63

/-! ## Strings -/

/-- Go strings as sequences of code points. -/
abbrev GoString := List Char

/-- `strings.Split(s, sep)` for a one-character separator: the pieces between
occurrences of `sep`; the empty string gives one empty piece. -/
def splitOn (sep : Char) : GoString → List GoString
  | [] => [[]]
  | c :: cs =>
    if c = sep then [] :: splitOn sep cs
    else
      match splitOn sep cs with
      | [] => [[c]]
      | p :: ps => (c :: p) :: ps

/-- `strings.Split(s, ".")`. -/
def splitDot (s : GoString) : List GoString := splitOn '.' s

/-- `strings.Join(parts, ".")`. -/
def joinDot : List GoString → GoString
  | [] => []
  | [p] => p
  | p :: q :: rest => p ++ '.' :: joinDot (q :: rest)

/-- `strings.Contains(s, ".")`. -/
def containsDot (s : GoString) : Bool := s.any (fun c => c == '.')

/-! ## Target matcher -/

deriving instance DecidableEq for Except

/-- The two errors of `registrableRoot`. -/
inductive HostError
  | invalidHost
  | shortHost
  deriving DecidableEq, Repr

/-- `registrableRoot`; `publicSuffix` stands for the first component of
`publicsuffix.PublicSuffix`. -/
def registrableRoot (publicSuffix : GoString → GoString) (host : GoString) :
    Except HostError GoString :=
  let eTLD := publicSuffix host
  if eTLD = [] ∨ ¬ containsDot host = true then
    Except.error HostError.invalidHost
  else
    let parts := splitDot host
    let suffixParts := splitDot eTLD
    if parts.length < suffixParts.length + 1 then
      Except.error HostError.shortHost
    else
      Except.ok (joinDot (parts.drop (parts.length - suffixParts.length - 1)))

/-- A small public-suffix lookup used for concrete runs: `co.uk` for hosts under
`co.uk`, otherwise the last label, which is what the default rule `*` of the
public-suffix list gives for a TLD the list does not hold. -/
def samplePublicSuffix (host : GoString) : GoString :=
  let parts := splitDot host
  let n := parts.length
  if parts.drop (n - 2) = ["co".toList, "uk".toList] then "co.uk".toList
  else joinDot (parts.drop (n - 1))

/-! ## Record store -/

/-- One row of table `subdomains`. -/
structure Row where
  host : GoString
  first_seen : Int
  last_seen : Int
  live : Bool
  deriving DecidableEq, Repr

/-- The table `subdomains`, in insertion order. -/
abbrev DB := List Row

/-- The record of `host`, as the map `host -> (first_seen, last_seen, live)`. -/
def lookup (db : DB) (host : GoString) : Option (Int × Int × Bool) :=
  match db.find? (fun r => decide (r.host = host)) with
  | none => none
  | some r => some (r.first_seen, r.last_seen, r.live)

/-- Outcome of `QueryRow(...).Scan(&fs, &ls)`. -/
inductive QueryResult
  | noRows
  | row (fs ls : Int)
  | failed
  deriving DecidableEq, Repr

/-- `SELECT first_seen,last_seen FROM subdomains WHERE host=?`. -/
def queryRow (db : DB) (host : GoString) : QueryResult :=
  match lookup db host with
  | none => QueryResult.noRows
  | some (fs, ls, _) => QueryResult.row fs ls

/-- `INSERT INTO subdomains(host,first_seen,last_seen,live) VALUES(?,?,?,0)`;
`host` is the primary key, so the statement changes nothing when a row of
`host` exists (the caller drops the error). -/
def execInsert (db : DB) (host : GoString) (fs ls : Int) : DB :=
  if (lookup db host).isSome then db else db ++ [⟨host, fs, ls, false⟩]

/-- `UPDATE subdomains SET last_seen=? WHERE host=?`. -/
def execSetLastSeen (db : DB) (seen : Int) (host : GoString) : DB :=
  db.map (fun r => if r.host = host then { r with last_seen := seen } else r)

/-- What `upsertHost` returns. -/
structure UpsertResult where
  firstSeen : Int
  lastSeen : Int
  known : Bool
  deriving DecidableEq, Repr

/-- The three branches of `upsertHost` on the outcome of the `SELECT`. -/
def upsertWith (q : QueryResult) (db : DB) (host : GoString) (seen : Int) :
    UpsertResult × DB :=
  match q with
  | QueryResult.noRows => (⟨seen, seen, false⟩, execInsert db host seen seen)
  | QueryResult.row fs ls =>
    if seen > ls then (⟨fs, seen, true⟩, execSetLastSeen db seen host)
    else (⟨fs, ls, true⟩, db)
  | QueryResult.failed => (⟨seen, seen, true⟩, db)

/-- `upsertHost` on a store whose statements succeed. -/
def upsertHost (db : DB) (host : GoString) (seen : Int) : UpsertResult × DB :=
  upsertWith (queryRow db host) db host seen

/-- `markLive`: `UPDATE subdomains SET live=1 WHERE host=?`. -/
def markLive (db : DB) (host : GoString) : DB :=
  db.map (fun r => if r.host = host then { r with live := true } else r)

/-- A call on the store. -/
inductive StoreOp
  | upsert (host : GoString) (seen : Int)
  | markLive (host : GoString)
  deriving DecidableEq, Repr

/-- The store after one call. -/
def applyOp (db : DB) : StoreOp → DB
  | StoreOp.upsert host seen => (upsertHost db host seen).2
  | StoreOp.markLive host => markLive db host

/-- The store after a sequence of calls. -/
def runOps (db : DB) (ops : List StoreOp) : DB := ops.foldl applyOp db

/-! ## Session supervisor: backoff -/

/-- `time.Second` in nanoseconds. -/
def second : Int := 1000000000

/-- The update of `backoff` at the end of a reconnect cycle:
`if backoff < 60*time.Second { backoff *= 2 }`. -/
def nextBackoff (backoff : Int) : Int :=
  if backoff < 60 * second then wrapInt64 (backoff * 2) else backoff

/-- The value of `backoff` after `n` reconnect cycles, from `time.Second`. -/
def backoffAfter : Nat → Int
  | 0 => second
  | n + 1 => nextBackoff (backoffAfter n)

/-! ## Title extraction -/

/-- `unicode.IsSpace`: the characters `strings.TrimSpace` removes. -/
def isSpace (c : Char) : Bool :=
  let n := c.toNat
  n = 9 || n = 10 || n = 11 || n = 12 || n = 13 || n = 32 || n = 0x85 || n = 0xA0 ||
  n = 0x1680 || (0x2000 ≤ n && n ≤ 0x200A) || n = 0x2028 || n = 0x2029 ||
  n = 0x202F || n = 0x205F || n = 0x3000

/-- The regexp class `\s`, which is `[\t\n\f\r ]`. -/
def isReSpace (c : Char) : Bool :=
  let n := c.toNat
  n = 9 || n = 10 || n = 12 || n = 13 || n = 32

/-- `strings.TrimSpace`. -/
def trimSpace (s : GoString) : GoString :=
  ((s.dropWhile isSpace).reverse.dropWhile isSpace).reverse

/-- `strings.ReplaceAll(s, old, new)` for a one-character `old`. -/
def replaceAll (old : Char) (new : GoString) : GoString → GoString
  | [] => []
  | c :: cs => if c = old then new ++ replaceAll old new cs else c :: replaceAll old new cs

/-- Replaces every maximal run of `\s` characters by one space; `inRun` says the
previous character belonged to a run. -/
def collapseAux : Bool → GoString → GoString
  | _, [] => []
  | inRun, c :: cs =>
    if isReSpace c then
      if inRun then collapseAux true cs else ' ' :: collapseAux true cs
    else c :: collapseAux false cs

/-- The call `regexp.MustCompile("\\s+").ReplaceAllString(s, " ")`. -/
def collapseSpace (s : GoString) : GoString := collapseAux false s

/-- The pieces a regexp of the shape of `titleRe` is a sequence of. -/
inductive Atom
  | one (p : Char → Bool)
  | star (p : Char → Bool)
  | starLazy (p : Char → Bool)
  | groupOpen
  | groupClose

/-- A match: the input left at the start of group 1, at its end, and after the
whole match. -/
structure Match where
  groupStart : GoString
  groupEnd : GoString
  rest : GoString
  deriving DecidableEq, Repr

/-- Greedy `c*` followed by `k`: the longest run first, then shorter ones. -/
def starGreedy {α : Type} (p : Char → Bool) (k : GoString → Option α) :
    GoString → Option α
  | [] => k []
  | c :: cs =>
    if p c then
      match starGreedy p k cs with
      | some r => some r
      | none => k (c :: cs)
    else k (c :: cs)

/-- Lazy `c*?` followed by `k`: the empty run first, then longer ones. -/
def starLazyRun {α : Type} (p : Char → Bool) (k : GoString → Option α) :
    GoString → Option α
  | [] => k []
  | c :: cs =>
    match k (c :: cs) with
    | some r => some r
    | none => if p c then starLazyRun p k cs else none

/-- Matches the atoms at the start of the input, preferring alternatives in the
order of a backtracking matcher. -/
def matchHere : List Atom → GoString → Option Match
  | [], s => some ⟨[], [], s⟩
  | Atom.one p :: re, s =>
    match s with
    | [] => none
    | c :: cs => if p c then matchHere re cs else none
  | Atom.star p :: re, s => starGreedy p (matchHere re) s
  | Atom.starLazy p :: re, s => starLazyRun p (matchHere re) s
  | Atom.groupOpen :: re, s => (matchHere re s).map (fun m => { m with groupStart := s })
  | Atom.groupClose :: re, s => (matchHere re s).map (fun m => { m with groupEnd := s })

/-- Leftmost match: the first position of the input where the atoms match. -/
def findMatch (re : List Atom) : GoString → Option Match
  | [] => matchHere re []
  | c :: cs =>
    match matchHere re (c :: cs) with
    | some m => some m
    | none => findMatch re cs

/-- The text of group 1 of a match. -/
def Match.group1 (m : Match) : GoString :=
  m.groupStart.take (m.groupStart.length - m.groupEnd.length)

/-- A letter under `(?i)`. -/
def ci (lower upper : Char) : Atom := Atom.one (fun c => c == lower || c == upper)

/-- A literal character. -/
def lit (x : Char) : Atom := Atom.one (fun c => c == x)

/-- The word `title` under `(?i)`. -/
def titleWord : List Atom := [ci 't' 'T', ci 'i' 'I', ci 't' 'T', ci 'l' 'L', ci 'e' 'E']

/-- The pattern `<\s*title[^>]*>` under `(?is)`. -/
def openTagRe : List Atom :=
  [lit '<', Atom.star isReSpace] ++ titleWord ++ [Atom.star (fun c => c != '>'), lit '>']

/-- The pattern `</\s*title\s*>` under `(?is)`. -/
def closeTagRe : List Atom :=
  [lit '<', lit '/', Atom.star isReSpace] ++ titleWord ++ [Atom.star isReSpace, lit '>']

/-- The pattern `(?is)<\s*title[^>]*>(.*?)</\s*title\s*>`. -/
def titleRe : List Atom :=
  openTagRe ++ [Atom.groupOpen, Atom.starLazy (fun _ => true), Atom.groupClose] ++ closeTagRe

/-- `extractTitle`. -/
def extractTitle (body : GoString) : GoString :=
  if body.length = 0 then []
  else
    match findMatch titleRe body with
    | some m =>
      let s := trimSpace m.group1
      let s := replaceAll '\n' [' '] s
      let s := replaceAll '\r' [' '] s
      collapseSpace s
    | none => []

/-- `sanitizeCSV`. -/
def sanitizeCSV (s : GoString) : GoString :=
  replaceAll (Char.ofNat 34) [Char.ofNat 34, Char.ofNat 34] s

/-- `oneLine`. -/
def oneLine (s : GoString) : GoString :=
  collapseSpace (replaceAll '\r' [' '] (replaceAll '\n' [' '] s))

/-! ## Liveness prober -/

/-- The scheme of a probe attempt. -/
inductive Scheme
  | http
  | https
  deriving DecidableEq, Repr

/-- The scheme as the string put in front of `://`. -/
def Scheme.name : Scheme → GoString
  | Scheme.http => "http".toList
  | Scheme.https => "https".toList

/-- The network as one probe sees it: whether `net.LookupHost` succeeds, and for a
GET with the configured client either an error (`none`) or the status code with
the body as read through the `maxBodyBytes` limit. -/
structure Net where
  lookupHost : GoString → Bool
  httpGet : Scheme → GoString → Option (Int × GoString)

/-- The four results of `probeHostDetails`. -/
structure ProbeResult where
  live : Bool
  status : Int
  title : GoString
  scheme : GoString
  deriving DecidableEq, Repr

/-- The closure `try` of `probeHostDetails`. -/
def tryScheme (net : Net) (host : GoString) (scheme : Scheme) : Bool × Int × GoString :=
  match net.httpGet scheme host with
  | none => (false, 0, [])
  | some (code, body) => (true, code, extractTitle body)

/-- `probeHostDetails`, with the list of GET attempts it made, in order. -/
def probeHostDetails (net : Net) (host : GoString) (httpsOnly : Bool) :
    ProbeResult × List Scheme :=
  if ¬ net.lookupHost host = true then (⟨false, 0, [], []⟩, [])
  else if httpsOnly then
    match tryScheme net host Scheme.https with
    | (true, code, title) => (⟨true, code, title, "https".toList⟩, [Scheme.https])
    | (false, _, _) => (⟨false, 0, [], []⟩, [Scheme.https])
  else
    match tryScheme net host Scheme.http with
    | (true, code, title) => (⟨true, code, title, "http".toList⟩, [Scheme.http])
    | (false, _, _) =>
      match tryScheme net host Scheme.https with
      | (true, code, title) =>
        (⟨true, code, title, "https".toList⟩, [Scheme.http, Scheme.https])
      | (false, _, _) => (⟨false, 0, [], []⟩, [Scheme.http, Scheme.https])

/-! ## Stream consumer -/

/-- The fields of a `certstream.Message` the consumer reads; `Seen` is the value
of `int64(msg.Data.Seen)`. -/
structure Message where
  MessageType : GoString
  Seen : Int
  AllDomains : List GoString
  deriving DecidableEq, Repr

/-- What the consumer takes from outside the program: the public-suffix lookup,
the Unicode lower-case table used above ASCII, and the network met by the probe
number `n`. -/
structure Env where
  publicSuffix : GoString → GoString
  lowerTable : Char → Char
  net : Nat → Net

/-- The store together with the number of probes made so far. -/
structure State where
  db : DB
  probes : Nat
  deriving DecidableEq, Repr

/-- What the consumer does for a host, in the order of the loop body: the calls
of `upsertHost`, `probeHostDetails` and `markLive`, and the lines it writes; the
wall-clock stamp and the certificate age of a line are left out. -/
inductive Output
  | upsert (host : GoString) (seen : Int)
  | probe (host : GoString)
  | allLog (host : GoString) (firstSeen lastSeen status : Int) (title scheme : GoString)
  | liveLog (host : GoString) (status : Int) (title scheme : GoString)
  | markLive (host : GoString)
  | newNotice (host root : GoString) (status : Int) (title : GoString)
  deriving DecidableEq, Repr

/-- `unicode.ToLower`: ASCII by the letter range, other characters by the case
table. -/
def toLowerRune (table : Char → Char) (c : Char) : Char :=
  if c.toNat ≤ 127 then
    if 65 ≤ c.toNat ∧ c.toNat ≤ 90 then Char.ofNat (c.toNat + 32) else c
  else table c

/-- `strings.ToLower`: every character mapped by `unicode.ToLower`. -/
def toLower (table : Char → Char) (s : GoString) : GoString :=
  s.map (toLowerRune table)

/-- `strings.TrimPrefix(s, "*.")`. -/
def trimWildcard : GoString → GoString
  | '*' :: '.' :: rest => rest
  | s => s

/-- `strings.ContainsAny(s, " \t\r\n")`. -/
def containsBlank (s : GoString) : Bool :=
  s.any (fun c => c == ' ' || c == '\t' || c == '\r' || c == '\n')

/-- The constant `unixToInternal` of package `time`: the seconds from year 1 to
1970. -/
def unixToInternal : Int := 62135596800

/-- `time.Unix(sec, 0)`: the seconds are stored as the `int64` sum
`sec + unixToInternal`, which wraps. -/
def timeUnix (sec : Int) : Int :=
  (wrapInt64 (sec + unixToInternal) - unixToInternal) * 1000000000

/-- The body of the loop over `AllDomains` for one name. -/
def handleDomain (env : Env) (ageCutoff : Int) (targets : GoString → Bool)
    (httpsOnly : Bool) (seenTs : Int) (st : State) (d : GoString) : State × List Output :=
  let host := toLower env.lowerTable (trimSpace d)
  let host := trimWildcard host
  if host = [] ∨ containsBlank host = true then (st, [])
  else
    match registrableRoot env.publicSuffix host with
    | Except.error _ => (st, [])
    | Except.ok root =>
      if ¬ targets root = true then (st, [])
      else
        let up := upsertHost st.db host seenTs
        let pr := (probeHostDetails (env.net st.probes) host httpsOnly).1
        let all := [Output.upsert host seenTs, Output.probe host,
          Output.allLog host up.1.firstSeen up.1.lastSeen pr.status
            (sanitizeCSV pr.title) pr.scheme]
        let liveNow := pr.live = true ∧ timeUnix seenTs > ageCutoff
        let live := if liveNow then
          [Output.liveLog host pr.status (sanitizeCSV pr.title) pr.scheme,
            Output.markLive host] else []
        let db := if liveNow then markLive up.2 host else up.2
        let notice := if up.1.known = false then
          [Output.newNotice host root pr.status (oneLine pr.title)] else []
        (⟨db, st.probes + 1⟩, all ++ live ++ notice)

/-- The loop `for _, d := range msg.Data.LeafCert.AllDomains`. -/
def handleDomains (env : Env) (ageCutoff : Int) (targets : GoString → Bool)
    (httpsOnly : Bool) (seenTs : Int) : State → List GoString → State × List Output
  | st, [] => (st, [])
  | st, d :: ds =>
    let r := handleDomain env ageCutoff targets httpsOnly seenTs st d
    let rs := handleDomains env ageCutoff targets httpsOnly seenTs r.1 ds
    (rs.1, r.2 ++ rs.2)

/-- The `case msg, ok := <-stream` branch for a received message. -/
def handleMessage (env : Env) (ageCutoff : Int) (targets : GoString → Bool)
    (httpsOnly : Bool) (st : State) (msg : Message) : State × List Output :=
  if msg.MessageType ≠ "certificate_update".toList then (st, [])
  else
    let seenTs := msg.Seen
    let seen := timeUnix seenTs
    if seen < ageCutoff then (st, [])
    else handleDomains env ageCutoff targets httpsOnly seenTs st msg.AllDomains

/-- `consumeLoopWithContext` on the messages it receives before it returns. -/
def consumeLoopWithContext (env : Env) (ageCutoff : Int) (targets : GoString → Bool)
    (httpsOnly : Bool) : State → List Message → State × List Output
  | st, [] => (st, [])
  | st, msg :: msgs =>
    let r := handleMessage env ageCutoff targets httpsOnly st msg
    let rs := consumeLoopWithContext env ageCutoff targets httpsOnly r.1 msgs
    (rs.1, r.2 ++ rs.2)

/-- The hosts of the lines written to the "all" log. -/
def allLogHosts : List Output → List GoString
  | [] => []
  | Output.allLog host _ _ _ _ _ :: rest => host :: allLogHosts rest
  | _ :: rest => allLogHosts rest

/-- The hosts of the `upsertHost` calls. -/
def upsertHosts : List Output → List GoString
  | [] => []
  | Output.upsert host _ :: rest => host :: upsertHosts rest
  | _ :: rest => upsertHosts rest

/-- The hosts of the `probeHostDetails` calls. -/
def probeHosts : List Output → List GoString
  | [] => []
  | Output.probe host :: rest => host :: probeHosts rest
  | _ :: rest => probeHosts rest

/-- A network where every lookup succeeds and every GET answers 200 with a page
titled `ok`. -/
def sampleNet : Net :=
  { lookupHost := fun _ => true,
    httpGet := fun _ _ => some (200, "<title>ok</title>".toList) }

/-- An environment for concrete runs. -/
def sampleEnv : Env :=
  { publicSuffix := samplePublicSuffix, lowerTable := fun c => c, net := fun _ => sampleNet }

/-! ## Definitions used by the statements -/

/-- The invariant of the table: `host` is a key and no row has `first_seen` after
`last_seen`. -/
def StoreInv (db : DB) : Prop :=
  (db.map (fun r => r.host)).Nodup ∧ ∀ r ∈ db, r.first_seen ≤ r.last_seen

/-- Whether the store holds a record of `host`. -/
def present (db : DB) (host : GoString) : Bool := (lookup db host).isSome

/-- The number of "[NEW]" notices for `host` in an output. -/
def newNoticeCount (host : GoString) : List Output → Nat
  | [] => 0
  | Output.newNotice h _ _ _ :: rest =>
    (if h = host then 1 else 0) + newNoticeCount host rest
  | _ :: rest => newNoticeCount host rest

/-- One if the store holds a record of `host`, zero otherwise. -/
def presentNat (db : DB) (host : GoString) : Nat := if present db host = true then 1 else 0

/-- A network where lookups succeed, HTTP fails and HTTPS answers 200. -/
def httpsOnlyNet : Net :=
  { lookupHost := fun _ => true,
    httpGet := fun scheme _ =>
      match scheme with
      | Scheme.http => none
      | Scheme.https => some (200, "<title>secure</title>".toList) }

/-- A network where no name resolves. -/
def deadNet : Net :=
  { lookupHost := fun _ => false, httpGet := fun _ _ => some (200, []) }

/-- A network where lookups succeed and every GET fails. -/
def silentNet : Net :=
  { lookupHost := fun _ => true, httpGet := fun _ _ => none }

/-- The value of `host` in the loop body for the name `d`. -/
def loopHost (env : Env) (d : GoString) : GoString :=
  trimWildcard (toLower env.lowerTable (trimSpace d))

/-- Whether the loop body gets past its two `continue` guards for `host`. -/
def loopKeeps (env : Env) (targets : GoString → Bool) (host : GoString) : Bool :=
  decide (host ≠ []) && !containsBlank host &&
    match registrableRoot env.publicSuffix host with
    | Except.ok root => targets root
    | Except.error _ => false

/-- The hosts the loop handles for a message, with the tests of the code. -/
def loopForwarded (env : Env) (ageCutoff : Int) (targets : GoString → Bool)
    (msg : Message) : List GoString :=
  if msg.MessageType = "certificate_update".toList ∧ ¬ timeUnix msg.Seen < ageCutoff then
    (msg.AllDomains.map (loopHost env)).filter (loopKeeps env targets)
  else []

/-- The hosts of the lines written to the "live" log. -/
def liveLogHosts : List Output → List GoString
  | [] => []
  | Output.liveLog host _ _ _ :: rest => host :: liveLogHosts rest
  | _ :: rest => liveLogHosts rest

/-- The event of the scenario: a `certificate_update` for `sub.example.com` seen
at second 1700000000. -/
def boundaryMessage : Message :=
  ⟨"certificate_update".toList, 1700000000, ["sub.example.com".toList]⟩

/-- The word `title` in any letter case. -/
def isTitleWord : GoString → Bool
  | [a, b, c, d, e] =>
    (a == 't' || a == 'T') && (b == 'i' || b == 'I') && (c == 't' || c == 'T') &&
      (d == 'l' || d == 'L') && (e == 'e' || e == 'E')
  | _ => false

/-- An opening tag: `<`, characters of class `\s`, `title` in any case, characters
other than `>`, and `>`. -/
def IsOpenTag (tag : GoString) : Prop :=
  ∃ ws word attrs, tag = '<' :: (ws ++ (word ++ (attrs ++ ['>']))) ∧
    (∀ c ∈ ws, isReSpace c = true) ∧ isTitleWord word = true ∧ '>' ∉ attrs

/-- A closing tag: `</`, characters of class `\s`, `title` in any case, characters
of class `\s`, and `>`. -/
def IsCloseTag (tag : GoString) : Prop :=
  ∃ ws word ws2, tag = '<' :: '/' :: (ws ++ (word ++ (ws2 ++ ['>']))) ∧
    (∀ c ∈ ws, isReSpace c = true) ∧ isTitleWord word = true ∧
    (∀ c ∈ ws2, isReSpace c = true)

/-- A title region with the given content starts the string. -/
def RegionAt (s content : GoString) : Prop :=
  ∃ otag ctag rest, IsOpenTag otag ∧ IsCloseTag ctag ∧ s = otag ++ (content ++ (ctag ++ rest))

/-- The content of the first title region of the body: the region starts at the
leftmost position where one starts, and ends at the first closing tag. -/
def FirstRegion (body content : GoString) : Prop :=
  ∃ pre s, body = pre ++ s ∧ RegionAt s content ∧
    (∀ pre2 s2 content2, body = pre2 ++ s2 → pre2.length < pre.length →
      ¬ RegionAt s2 content2) ∧
    (∀ content2, RegionAt s content2 → content.length ≤ content2.length)

/-- Removes `title` in any case from the front. -/
def stripTitleWord : GoString → Option GoString
  | a :: b :: c :: d :: e :: rest => if isTitleWord [a, b, c, d, e] = true then some rest else none
  | _ => none

/-- Removes one character `x` from the front. -/
def stripChar (x : Char) : GoString → Option GoString
  | [] => none
  | c :: cs => if c = x then some cs else none

/-- Removes an opening tag from the front. -/
def parseOpen (s : GoString) : Option GoString :=
  (stripChar '<' s).bind fun s1 =>
  (stripTitleWord (s1.dropWhile isReSpace)).bind fun s3 =>
  stripChar '>' (s3.dropWhile (fun c => c != '>'))

/-- Removes a closing tag from the front. -/
def parseClose (s : GoString) : Option GoString :=
  (stripChar '<' s).bind fun s0 =>
  (stripChar '/' s0).bind fun s1 =>
  (stripTitleWord (s1.dropWhile isReSpace)).bind fun s3 =>
  stripChar '>' (s3.dropWhile isReSpace)

/-- The spec's trimming, for a notion `ws` of white space: the characters of `ws`
are removed from both ends. -/
def specTrim (ws : Char → Bool) (s : GoString) : GoString :=
  ((s.dropWhile ws).reverse.dropWhile ws).reverse

/-- The spec's collapsing, for a notion `ws` of white space: every maximal run of
characters of `ws` becomes one space; `inRun` says the previous character belonged
to a run. -/
def specCollapseAux (ws : Char → Bool) : Bool → GoString → GoString
  | _, [] => []
  | inRun, c :: cs =>
    if ws c then
      if inRun then specCollapseAux ws true cs else ' ' :: specCollapseAux ws true cs
    else c :: specCollapseAux ws false cs

/-- The spec's title for a region content: trimmed for `wsTrim`, then collapsed
for `wsRun`. The claim uses one notion of white space for both. -/
def specTitle (wsTrim wsRun : Char → Bool) (content : GoString) : GoString :=
  specCollapseAux wsRun false (specTrim wsTrim content)

/-- A body whose title holds two vertical tabs between `a` and `b`. -/
def tabsInsideBody : GoString :=
  "<title>a".toList ++ [Char.ofNat 11, Char.ofNat 11] ++ "b</title>".toList

/-- A body whose title starts with a vertical tab. -/
def tabFirstBody : GoString :=
  "<title>".toList ++ [Char.ofNat 11] ++ "a</title>".toList

/-- The spec's stripping of one leading `*.`. -/
def specStripWildcard (s : GoString) : GoString :=
  if s.take 2 = ['*', '.'] then s.drop 2 else s

/-- The spec's malformed-name test: the name holds a space, tab, CR or LF. -/
def specHasBlank (s : GoString) : Bool :=
  decide (' ' ∈ s ∨ '\t' ∈ s ∨ '\r' ∈ s ∨ '\n' ∈ s)

/-- The spec's normal form of a domain name: lower-cased, white space trimmed, one
leading `*.` stripped. -/
def specNormalize (env : Env) (d : GoString) : GoString :=
  specStripWildcard (specTrim isSpace (toLower env.lowerTable d))

/-- The spec's test on a normalized name: not empty, no space, tab, CR or LF, and
a registrable root that resolves and belongs to the target set. -/
def specKeeps (env : Env) (targets : GoString → Bool) (host : GoString) : Bool :=
  decide (host ≠ []) && !specHasBlank host &&
    match registrableRoot env.publicSuffix host with
    | Except.ok root => targets root
    | Except.error _ => false

/-- The instant `sec` seconds after the Unix epoch, in nanoseconds. -/
def specInstant (sec : Int) : Int := sec * 1000000000

/-- The hosts the spec forwards for a message: none unless the message is a
`certificate_update` whose seen instant is not before the cutoff, and then the
normalized names that pass the test, in order. -/
def specForwarded (env : Env) (ageCutoff : Int) (targets : GoString → Bool)
    (msg : Message) : List GoString :=
  if msg.MessageType = "certificate_update".toList ∧ ¬ specInstant msg.Seen < ageCutoff then
    (msg.AllDomains.map (specNormalize env)).filter (specKeeps env targets)
  else []

/-- The event of the end-to-end scenario, with a wildcard name in mixed case and
two malformed names added, seen at second 1700000000. -/
def scenarioMessage : Message :=
  ⟨"certificate_update".toList, 1700000000,
    ["sub.example.com".toList, "evil.other.com".toList, " *.Api.Example.COM ".toList,
      "bad host.example.com".toList, []]⟩

/-- A `certificate_update` for `sub.example.com` whose seen value is the largest
`float64` below `2^63`. -/
def wrappedSeenMessage : Message :=
  ⟨"certificate_update".toList, 9223372036854774784, ["sub.example.com".toList]⟩

/-- A closing tag at the start of `t`, as a match whose group ends at `t`. -/
def closeAt (t : GoString) : Option Match := (parseClose t).map (fun r => ⟨[], t, r⟩)

/-! # Theorems -/

/-! ## Backoff -/

theorem backoffAfter_small :
    backoffAfter 0 = second ∧ backoffAfter 1 = 2 * second ∧ backoffAfter 2 = 4 * second ∧
    backoffAfter 3 = 8 * second ∧ backoffAfter 4 = 16 * second ∧
    backoffAfter 5 = 32 * second ∧ backoffAfter 6 = 64 * second := by
  norm_num [backoffAfter, nextBackoff, wrapInt64, second]

theorem backoffAfter_large (n : Nat) : backoffAfter (6 + n) = 64 * second := by
  induction n with
  | zero => exact backoffAfter_small.2.2.2.2.2.2
  | succ k ih =>
    have step : backoffAfter (6 + (k + 1)) = nextBackoff (backoffAfter (6 + k)) := rfl
    rw [step, ih]
    norm_num [nextBackoff, second]

/-- C9, as the claim states it, fails after six reconnect cycles: the backoff is
64 s, which is neither `min(2^6 s, 60 s)` nor at most 60 s. -/
theorem backoffAfter_six_above_sixty :
    backoffAfter 6 = 64 * second ∧
    backoffAfter 6 ≠ min (2 ^ 6 * second) (60 * second) ∧
    ¬ backoffAfter 6 ≤ 60 * second := by
  rw [backoffAfter_small.2.2.2.2.2.2]
  norm_num [second]

/-- C9 (amended): the backoff starts at 1 s and after `n` reconnect cycles is
`min(2^n, 64)` seconds: it doubles while it is below 60 s, so it is 8 s after
three cycles, stays at 64 s from the sixth on, and never exceeds 64 s. -/
theorem backoffAfter_eq (n : Nat) :
    backoffAfter n = (min (2 ^ n) 64 : Nat) * second ∧
    backoffAfter 0 = second ∧ backoffAfter 3 = 8 * second ∧
    backoffAfter n ≤ 64 * second := by
  have closed : backoffAfter n = (min (2 ^ n) 64 : Nat) * second := by
    by_cases h : n < 6
    · interval_cases n <;> norm_num [backoffAfter, nextBackoff, wrapInt64, second]
    · obtain ⟨k, rfl⟩ : ∃ k, n = 6 + k := ⟨n - 6, by omega⟩
      rw [backoffAfter_large]
      have h64 : (64 : Nat) ≤ 2 ^ (6 + k) := by
        calc (64 : Nat) = 2 ^ 6 := by norm_num
          _ ≤ 2 ^ (6 + k) := Nat.pow_le_pow_right (by norm_num) (by omega)
      rw [Nat.min_eq_right h64]
      rfl
  refine ⟨closed, backoffAfter_small.1, backoffAfter_small.2.2.2.1, ?_⟩
  rw [closed]
  have hmin : (min (2 ^ n) 64 : Nat) ≤ 64 := Nat.min_le_right _ _
  have hs : (0 : Int) ≤ second := by norm_num [second]
  exact Int.mul_le_mul_of_nonneg_right (by exact_mod_cast hmin) hs

/-! ## Record store -/

theorem lookup_nil (host : GoString) : lookup [] host = none := rfl

theorem lookup_cons (r : Row) (db : DB) (host : GoString) :
    lookup (r :: db) host =
      if r.host = host then some (r.first_seen, r.last_seen, r.live) else lookup db host := by
  unfold lookup
  by_cases h : r.host = host <;> simp [List.find?, h]

theorem lookup_append_none (db : DB) (extra : DB) (host : GoString)
    (h : lookup db host = none) : lookup (db ++ extra) host = lookup extra host := by
  induction db with
  | nil => rfl
  | cons r db ih =>
    rw [lookup_cons] at h
    by_cases hr : r.host = host
    · simp [hr] at h
    · simp only [hr, if_false] at h
      rw [List.cons_append, lookup_cons]
      simp only [hr, if_false]
      exact ih h

theorem lookup_append_some (db : DB) (extra : DB) (host : GoString) (v : Int × Int × Bool)
    (h : lookup db host = some v) : lookup (db ++ extra) host = some v := by
  induction db with
  | nil => simp [lookup_nil] at h
  | cons r db ih =>
    rw [lookup_cons] at h
    rw [List.cons_append, lookup_cons]
    by_cases hr : r.host = host
    · simpa [hr] using h
    · simp only [hr, if_false] at h ⊢
      exact ih h

/-- A row-wise update that keeps the key acts on `lookup` through the row. -/
theorem lookup_map (f : Row → Row) (hf : ∀ r, (f r).host = r.host) (db : DB)
    (host : GoString) :
    lookup (db.map f) host =
      (db.find? (fun r => decide (r.host = host))).map
        (fun r => ((f r).first_seen, (f r).last_seen, (f r).live)) := by
  induction db with
  | nil => rfl
  | cons r db ih =>
    rw [List.map_cons, lookup_cons, hf]
    by_cases hr : r.host = host
    · simp [hr, List.find?]
    · simp [hr, List.find?, ih]

theorem lookup_eq_find (db : DB) (host : GoString) :
    lookup db host =
      (db.find? (fun r => decide (r.host = host))).map
        (fun r => (r.first_seen, r.last_seen, r.live)) := by
  unfold lookup
  cases db.find? (fun r => decide (r.host = host)) <;> rfl

theorem find_host (db : DB) (host : GoString) (r : Row)
    (h : db.find? (fun r => decide (r.host = host)) = some r) : r.host = host := by
  have := List.find?_some h
  simpa using this

theorem lookup_execInsert_self (db : DB) (host : GoString) (fs ls : Int)
    (h : lookup db host = none) :
    lookup (execInsert db host fs ls) host = some (fs, ls, false) := by
  unfold execInsert
  rw [h]
  simp only [Option.isSome_none, Bool.false_eq_true, if_false]
  rw [lookup_append_none _ _ _ h, lookup_cons]
  simp

theorem lookup_execInsert_other (db : DB) (host other : GoString) (fs ls : Int)
    (hne : other ≠ host) :
    lookup (execInsert db host fs ls) other = lookup db other := by
  unfold execInsert
  split
  · rfl
  · cases ho : lookup db other with
    | none =>
      rw [lookup_append_none _ _ _ ho, lookup_cons]
      simp [Ne.symm hne, lookup_nil]
    | some v => exact lookup_append_some _ _ _ _ ho

theorem lookup_execSetLastSeen_self (db : DB) (host : GoString) (seen fs ls : Int) (l : Bool)
    (h : lookup db host = some (fs, ls, l)) :
    lookup (execSetLastSeen db seen host) host = some (fs, seen, l) := by
  unfold execSetLastSeen
  rw [lookup_map _ (by intro r; split <;> rfl)]
  rw [lookup_eq_find] at h
  cases hf : db.find? (fun r => decide (r.host = host)) with
  | none => simp [hf] at h
  | some r =>
    have hr := find_host db host r hf
    simp only [hf, Option.map_some', Option.some.injEq, Prod.mk.injEq] at h
    simp [hr, h.1, h.2.2]

theorem lookup_execSetLastSeen_other (db : DB) (host other : GoString) (seen : Int)
    (hne : other ≠ host) :
    lookup (execSetLastSeen db seen host) other = lookup db other := by
  unfold execSetLastSeen
  rw [lookup_map _ (by intro r; split <;> rfl), lookup_eq_find]
  cases hf : db.find? (fun r => decide (r.host = other)) with
  | none => rfl
  | some r =>
    have hr := find_host db other r hf
    have : r.host ≠ host := by rw [hr]; exact hne
    simp [this]

theorem lookup_markLive_self (db : DB) (host : GoString) :
    lookup (markLive db host) host = (lookup db host).map (fun v => (v.1, v.2.1, true)) := by
  unfold markLive
  rw [lookup_map _ (by intro r; split <;> rfl), lookup_eq_find]
  cases hf : db.find? (fun r => decide (r.host = host)) with
  | none => rfl
  | some r =>
    have hr := find_host db host r hf
    simp [hr]

theorem lookup_markLive_other (db : DB) (host other : GoString) (hne : other ≠ host) :
    lookup (markLive db host) other = lookup db other := by
  unfold markLive
  rw [lookup_map _ (by intro r; split <;> rfl), lookup_eq_find]
  cases hf : db.find? (fun r => decide (r.host = other)) with
  | none => rfl
  | some r =>
    have hr := find_host db other r hf
    have : r.host ≠ host := by rw [hr]; exact hne
    simp [this]

/-- `upsertHost` when no record of the host exists. -/
theorem upsertHost_absent (db : DB) (host : GoString) (seen : Int)
    (h : lookup db host = none) :
    upsertHost db host seen = (⟨seen, seen, false⟩, execInsert db host seen seen) := by
  simp [upsertHost, queryRow, h, upsertWith]

/-- `upsertHost` when a record of the host exists. -/
theorem upsertHost_present (db : DB) (host : GoString) (seen fs ls : Int) (l : Bool)
    (h : lookup db host = some (fs, ls, l)) :
    upsertHost db host seen =
      if seen > ls then (⟨fs, seen, true⟩, execSetLastSeen db seen host)
      else (⟨fs, ls, true⟩, db) := by
  simp [upsertHost, queryRow, h, upsertWith]

theorem lookup_none_iff (db : DB) (host : GoString) :
    lookup db host = none ↔ host ∉ db.map (fun r => r.host) := by
  induction db with
  | nil => simp [lookup_nil]
  | cons r db ih =>
    rw [lookup_cons]
    by_cases hr : r.host = host
    · simp [hr]
    · have hr' : ¬ host = r.host := fun e => hr e.symm
      simp [hr, hr', ih]

theorem lookup_of_mem (db : DB) (r : Row) (hnd : (db.map (fun r => r.host)).Nodup)
    (hr : r ∈ db) : lookup db r.host = some (r.first_seen, r.last_seen, r.live) := by
  induction db with
  | nil => simp at hr
  | cons x db ih =>
    rw [List.map_cons, List.nodup_cons] at hnd
    rw [lookup_cons]
    rcases List.mem_cons.mp hr with rfl | hmem
    · simp
    · have hx : x.host ≠ r.host := by
        intro e
        exact hnd.1 (e ▸ List.mem_map_of_mem (fun r => r.host) hmem)
      simp only [hx, if_false]
      exact ih hnd.2 hmem

theorem storeInv_nil : StoreInv [] := by
  constructor
  · simp
  · intro r hr
    simp at hr

theorem map_host_execSetLastSeen (db : DB) (seen : Int) (host : GoString) :
    (execSetLastSeen db seen host).map (fun r => r.host) = db.map (fun r => r.host) := by
  unfold execSetLastSeen
  rw [List.map_map]
  apply List.map_congr_left
  intro r _
  simp only [Function.comp]
  split <;> rfl

theorem map_host_markLive (db : DB) (host : GoString) :
    (markLive db host).map (fun r => r.host) = db.map (fun r => r.host) := by
  unfold markLive
  rw [List.map_map]
  apply List.map_congr_left
  intro r _
  simp only [Function.comp]
  split <;> rfl

theorem storeInv_execInsert (db : DB) (host : GoString) (seen : Int) (h : StoreInv db) :
    StoreInv (execInsert db host seen seen) := by
  unfold execInsert
  split
  · exact h
  · rename_i hnone
    have hl : lookup db host = none := by
      cases hv : lookup db host with
      | none => rfl
      | some v => simp [hv] at hnone
    have hnot := (lookup_none_iff db host).mp hl
    constructor
    · rw [List.map_append, List.nodup_append]
      refine ⟨h.1, by simp, ?_⟩
      intro a ha hb
      simp only [List.map_cons, List.map_nil, List.mem_singleton] at hb
      exact hnot (hb ▸ ha)
    · intro r hr
      rcases List.mem_append.mp hr with hr | hr
      · exact h.2 r hr
      · simp only [List.mem_singleton] at hr
        rw [hr]

theorem storeInv_execSetLastSeen (db : DB) (host : GoString) (seen fs ls : Int) (l : Bool)
    (h : StoreInv db) (hl : lookup db host = some (fs, ls, l)) (hlt : seen > ls) :
    StoreInv (execSetLastSeen db seen host) := by
  constructor
  · rw [map_host_execSetLastSeen]
    exact h.1
  · intro r hr
    unfold execSetLastSeen at hr
    obtain ⟨x, hx, rfl⟩ := List.mem_map.mp hr
    by_cases hxh : x.host = host
    · simp only [hxh, if_true]
      have hlx := lookup_of_mem db x h.1 hx
      rw [hxh, hl] at hlx
      simp only [Option.some.injEq, Prod.mk.injEq] at hlx
      have hle := h.2 x hx
      show x.first_seen ≤ seen
      rw [← hlx.2.1] at hle
      omega
    · simp only [hxh, if_false]
      exact h.2 x hx

theorem storeInv_markLive (db : DB) (host : GoString) (h : StoreInv db) :
    StoreInv (markLive db host) := by
  constructor
  · rw [map_host_markLive]
    exact h.1
  · intro r hr
    unfold markLive at hr
    obtain ⟨x, hx, rfl⟩ := List.mem_map.mp hr
    by_cases hxh : x.host = host
    · simp only [hxh, if_true]
      exact h.2 x hx
    · simp only [hxh, if_false]
      exact h.2 x hx

theorem storeInv_upsertHost (db : DB) (host : GoString) (seen : Int) (h : StoreInv db) :
    StoreInv (upsertHost db host seen).2 := by
  cases hl : lookup db host with
  | none =>
    rw [upsertHost_absent db host seen hl]
    exact storeInv_execInsert db host seen h
  | some v =>
    obtain ⟨fs, ls, l⟩ := v
    rw [upsertHost_present db host seen fs ls l hl]
    by_cases hlt : seen > ls
    · simp only [hlt, if_true]
      exact storeInv_execSetLastSeen db host seen fs ls l h hl hlt
    · simp only [hlt, if_false]
      exact h

theorem storeInv_applyOp (db : DB) (op : StoreOp) (h : StoreInv db) :
    StoreInv (applyOp db op) := by
  cases op with
  | upsert host seen => exact storeInv_upsertHost db host seen h
  | markLive host => exact storeInv_markLive db host h

theorem storeInv_runOps (ops : List StoreOp) (db : DB) (h : StoreInv db) :
    StoreInv (runOps db ops) := by
  induction ops generalizing db with
  | nil => exact h
  | cons op ops ih => exact ih (applyOp db op) (storeInv_applyOp db op h)

theorem lookup_le_of_storeInv (db : DB) (h : StoreInv db) (host : GoString)
    (fs ls : Int) (l : Bool) (hl : lookup db host = some (fs, ls, l)) : fs ≤ ls := by
  rw [lookup_eq_find] at hl
  cases hf : db.find? (fun r => decide (r.host = host)) with
  | none => simp [hf] at hl
  | some r =>
    simp only [hf, Option.map_some', Option.some.injEq, Prod.mk.injEq] at hl
    have := h.2 r (List.mem_of_find?_eq_some hf)
    omega

theorem upsertHost_lookup_absent (db : DB) (host : GoString) (seen : Int)
    (h : lookup db host = none) :
    lookup (upsertHost db host seen).2 host = some (seen, seen, false) := by
  rw [upsertHost_absent db host seen h]
  exact lookup_execInsert_self db host seen seen h

theorem upsertHost_lookup_present (db : DB) (host : GoString) (seen fs ls : Int) (l : Bool)
    (h : lookup db host = some (fs, ls, l)) :
    (upsertHost db host seen).1 = ⟨fs, max ls seen, true⟩ ∧
    lookup (upsertHost db host seen).2 host = some (fs, max ls seen, l) := by
  rw [upsertHost_present db host seen fs ls l h]
  by_cases hlt : seen > ls
  · simp only [hlt, if_true]
    have hmax : max ls seen = seen := max_eq_right (le_of_lt hlt)
    rw [hmax]
    exact ⟨rfl, lookup_execSetLastSeen_self db host seen fs ls l h⟩
  · simp only [hlt, if_false]
    have hmax : max ls seen = ls := max_eq_left (not_lt.mp hlt)
    rw [hmax]
    exact ⟨rfl, h⟩

theorem upsertHost_other (db : DB) (host : GoString) (seen : Int) (other : GoString)
    (hne : other ≠ host) :
    lookup (upsertHost db host seen).2 other = lookup db other := by
  cases hl : lookup db host with
  | none =>
    rw [upsertHost_absent db host seen hl]
    exact lookup_execInsert_other db host other seen seen hne
  | some v =>
    obtain ⟨fs, ls, l⟩ := v
    rw [upsertHost_present db host seen fs ls l hl]
    by_cases hlt : seen > ls
    · simp only [hlt, if_true]
      exact lookup_execSetLastSeen_other db host other seen hne
    · simp only [hlt, if_false]

/-- C3: `upsertHost` on the store seen as a map `host -> (first_seen, last_seen,
live)`. An absent host gets `(seen, seen, false)` and the call returns
`(seen, seen, false)`; a present host keeps `first_seen` and `live`, gets
`last_seen = max(last_seen, seen)` and the call returns `(first_seen, max, true)`;
other hosts keep their records. From a store without the host, two upserts with
the same `seen` leave `first_seen = last_seen = seen`, and a third one with an
older time leaves `last_seen` at `seen`. -/
theorem upsertHost_map_spec (db : DB) (host : GoString) (seen : Int) :
    (lookup db host = none →
      (upsertHost db host seen).1 = ⟨seen, seen, false⟩ ∧
      lookup (upsertHost db host seen).2 host = some (seen, seen, false)) ∧
    (∀ fs ls l, lookup db host = some (fs, ls, l) →
      (upsertHost db host seen).1 = ⟨fs, max ls seen, true⟩ ∧
      lookup (upsertHost db host seen).2 host = some (fs, max ls seen, l)) ∧
    (∀ other, other ≠ host →
      lookup (upsertHost db host seen).2 other = lookup db other) ∧
    (lookup db host = none → ∀ older, older ≤ seen →
      lookup (upsertHost (upsertHost db host seen).2 host seen).2 host
        = some (seen, seen, false) ∧
      lookup (upsertHost (upsertHost (upsertHost db host seen).2 host seen).2 host older).2
        host = some (seen, seen, false)) := by
  have absent : lookup db host = none →
      (upsertHost db host seen).1 = ⟨seen, seen, false⟩ ∧
      lookup (upsertHost db host seen).2 host = some (seen, seen, false) := by
    intro h
    refine ⟨?_, upsertHost_lookup_absent db host seen h⟩
    rw [upsertHost_absent db host seen h]
  refine ⟨absent, fun fs ls l => upsertHost_lookup_present db host seen fs ls l,
    upsertHost_other db host seen, ?_⟩
  intro h older hle
  have h1 := (absent h).2
  have h2 := (upsertHost_lookup_present _ host seen seen seen false h1).2
  rw [max_self] at h2
  have h3 := (upsertHost_lookup_present _ host older seen seen false h2).2
  rw [max_eq_left hle] at h3
  exact ⟨h2, h3⟩

/-- C3 at concrete stores: an empty store, and a store holding one record of the
host. -/
theorem upsertHost_map_spec_witness :
    ((upsertHost [] "a.example.com".toList 5).1 = ⟨5, 5, false⟩ ∧
      lookup (upsertHost [] "a.example.com".toList 5).2 "a.example.com".toList
        = some (5, 5, false)) ∧
    ((upsertHost [⟨"a.example.com".toList, 1, 3, true⟩] "a.example.com".toList 7).1
        = ⟨1, max 3 7, true⟩ ∧
      lookup (upsertHost [⟨"a.example.com".toList, 1, 3, true⟩] "a.example.com".toList 7).2
        "a.example.com".toList = some (1, max 3 7, true)) ∧
    lookup (upsertHost [⟨"b.example.com".toList, 1, 3, true⟩] "a.example.com".toList 7).2
        "b.example.com".toList
      = lookup [⟨"b.example.com".toList, 1, 3, true⟩] "b.example.com".toList ∧
    (lookup (upsertHost (upsertHost [] "a.example.com".toList 5).2 "a.example.com".toList 5).2
        "a.example.com".toList = some (5, 5, false) ∧
      lookup (upsertHost (upsertHost (upsertHost [] "a.example.com".toList 5).2
        "a.example.com".toList 5).2 "a.example.com".toList 2).2 "a.example.com".toList
        = some (5, 5, false)) :=
  ⟨(upsertHost_map_spec [] "a.example.com".toList 5).1 (by decide),
   (upsertHost_map_spec [⟨"a.example.com".toList, 1, 3, true⟩] "a.example.com".toList 7).2.1
     1 3 true (by decide),
   (upsertHost_map_spec [⟨"b.example.com".toList, 1, 3, true⟩] "a.example.com".toList 7).2.2.1
     "b.example.com".toList (by decide),
   (upsertHost_map_spec [] "a.example.com".toList 5).2.2.2 (by decide) 2 (by decide)⟩

/-- C5: in every store reached from the empty store by `upsertHost` and `markLive`
calls, every row has `first_seen <= last_seen`, and an `upsertHost` call made
there returns `firstSeen <= lastSeen`. -/
theorem first_seen_le_last_seen (ops : List StoreOp) (host : GoString) (seen : Int) :
    (∀ r ∈ runOps [] ops, r.first_seen ≤ r.last_seen) ∧
    (upsertHost (runOps [] ops) host seen).1.firstSeen
      ≤ (upsertHost (runOps [] ops) host seen).1.lastSeen := by
  have hinv := storeInv_runOps ops [] storeInv_nil
  refine ⟨hinv.2, ?_⟩
  cases hl : lookup (runOps [] ops) host with
  | none =>
    rw [upsertHost_absent _ host seen hl]
  | some v =>
    obtain ⟨fs, ls, l⟩ := v
    have hle := lookup_le_of_storeInv _ hinv host fs ls l hl
    rw [upsertHost_present _ host seen fs ls l hl]
    by_cases hlt : seen > ls
    · simp only [hlt, if_true]
      show fs ≤ seen
      omega
    · simp only [hlt, if_false]
      exact hle

/-- C5 on a concrete run: the row left by three calls, and the pair returned by a
fourth. -/
theorem first_seen_le_last_seen_witness :
    (⟨"a.example.com".toList, 1, 9, true⟩ : Row).first_seen
      ≤ (⟨"a.example.com".toList, 1, 9, true⟩ : Row).last_seen ∧
    (upsertHost (runOps [] [StoreOp.upsert "a.example.com".toList 1,
        StoreOp.markLive "a.example.com".toList, StoreOp.upsert "a.example.com".toList 9])
      "a.example.com".toList 4).1.firstSeen
      ≤ (upsertHost (runOps [] [StoreOp.upsert "a.example.com".toList 1,
        StoreOp.markLive "a.example.com".toList, StoreOp.upsert "a.example.com".toList 9])
      "a.example.com".toList 4).1.lastSeen :=
  ⟨(first_seen_le_last_seen [StoreOp.upsert "a.example.com".toList 1,
        StoreOp.markLive "a.example.com".toList, StoreOp.upsert "a.example.com".toList 9]
      "a.example.com".toList 4).1 ⟨"a.example.com".toList, 1, 9, true⟩ (by decide),
   (first_seen_le_last_seen [StoreOp.upsert "a.example.com".toList 1,
        StoreOp.markLive "a.example.com".toList, StoreOp.upsert "a.example.com".toList 9]
      "a.example.com".toList 4).2⟩

/-! ## New versus known hosts -/

theorem upsertHost_known (db : DB) (host : GoString) (seen : Int) :
    (upsertHost db host seen).1.known = present db host := by
  unfold present
  cases hl : lookup db host with
  | none => rw [upsertHost_absent db host seen hl]; rfl
  | some v =>
    obtain ⟨fs, ls, l⟩ := v
    rw [upsertHost_present db host seen fs ls l hl]
    split <;> rfl

theorem present_upsertHost_self (db : DB) (host : GoString) (seen : Int) :
    present (upsertHost db host seen).2 host = true := by
  unfold present
  cases hl : lookup db host with
  | none => rw [upsertHost_lookup_absent db host seen hl]; rfl
  | some v =>
    obtain ⟨fs, ls, l⟩ := v
    rw [(upsertHost_lookup_present db host seen fs ls l hl).2]; rfl

theorem present_upsertHost_other (db : DB) (host other : GoString) (seen : Int)
    (hne : other ≠ host) :
    present (upsertHost db host seen).2 other = present db other := by
  unfold present
  rw [upsertHost_other db host seen other hne]

theorem present_markLive (db : DB) (host other : GoString) :
    present (markLive db host) other = present db other := by
  unfold present
  by_cases hne : other = host
  · rw [hne, lookup_markLive_self]
    cases lookup db host <;> rfl
  · rw [lookup_markLive_other db host other hne]

theorem present_applyOp (db : DB) (op : StoreOp) (host : GoString) :
    present (applyOp db op) host = true ↔
      present db host = true ∨ ∃ seen, op = StoreOp.upsert host seen := by
  cases op with
  | upsert h seen =>
    by_cases hne : host = h
    · subst hne
      simp [applyOp, present_upsertHost_self]
    · simp only [applyOp, present_upsertHost_other db h host seen hne]
      constructor
      · exact Or.inl
      · rintro (hp | ⟨s, hs⟩)
        · exact hp
        · cases hs
          exact absurd rfl hne
  | markLive h =>
    simp [applyOp, present_markLive]

theorem present_runOps (ops : List StoreOp) (db : DB) (host : GoString) :
    present (runOps db ops) host = true ↔
      present db host = true ∨ ∃ seen, StoreOp.upsert host seen ∈ ops := by
  induction ops generalizing db with
  | nil => simp [runOps]
  | cons op ops ih =>
    show present (runOps (applyOp db op) ops) host = true ↔ _
    rw [ih, present_applyOp]
    constructor
    · rintro ((hp | ⟨s, hs⟩) | ⟨s, hs⟩)
      · exact Or.inl hp
      · exact Or.inr ⟨s, hs ▸ List.mem_cons_self _ _⟩
      · exact Or.inr ⟨s, List.mem_cons_of_mem _ hs⟩
    · rintro (hp | ⟨s, hs⟩)
      · exact Or.inl (Or.inl hp)
      · rcases List.mem_cons.mp hs with hs | hs
        · exact Or.inl (Or.inr ⟨s, hs.symm⟩)
        · exact Or.inr ⟨s, hs⟩

theorem newNoticeCount_append (host : GoString) (a b : List Output) :
    newNoticeCount host (a ++ b) = newNoticeCount host a + newNoticeCount host b := by
  induction a with
  | nil => simp [newNoticeCount]
  | cons x a ih =>
    cases x <;> simp [newNoticeCount, ih, Nat.add_assoc]

theorem presentNat_le_one (db : DB) (host : GoString) : presentNat db host ≤ 1 := by
  unfold presentNat
  split <;> omega

theorem handleDomain_dropped (env : Env) (ageCutoff : Int) (targets : GoString → Bool)
    (httpsOnly : Bool) (seenTs : Int) (st : State) (d : GoString)
    (h : loopKeeps env targets (loopHost env d) = false) :
    handleDomain env ageCutoff targets httpsOnly seenTs st d = (st, []) := by
  unfold loopKeeps loopHost at h
  unfold handleDomain
  simp only []
  generalize trimWildcard (toLower env.lowerTable (trimSpace d)) = host at h ⊢
  by_cases h1 : host = []
  · simp [h1]
  · by_cases h2 : containsBlank host = true
    · simp [h2]
    · simp only [h1, h2, Bool.false_eq_true, or_self, if_false]
      cases hr : registrableRoot env.publicSuffix host with
      | error e => rfl
      | ok root =>
        simp only [hr, h1, h2, ne_eq, not_false_eq_true, decide_True, Bool.not_false,
          Bool.true_and, Bool.and_self] at h
        simp [h]

/-- The loop body for a name that gets past the guards, written out. -/
theorem handleDomain_kept_eq (env : Env) (ageCutoff : Int) (targets : GoString → Bool)
    (httpsOnly : Bool) (seenTs : Int) (st : State) (d : GoString)
    (h : loopKeeps env targets (loopHost env d) = true) :
    ∃ root, registrableRoot env.publicSuffix (loopHost env d) = Except.ok root ∧
      targets root = true ∧
      handleDomain env ageCutoff targets httpsOnly seenTs st d =
        (⟨if (probeHostDetails (env.net st.probes) (loopHost env d) httpsOnly).1.live = true
              ∧ timeUnix seenTs > ageCutoff
            then markLive (upsertHost st.db (loopHost env d) seenTs).2 (loopHost env d)
            else (upsertHost st.db (loopHost env d) seenTs).2, st.probes + 1⟩,
          [Output.upsert (loopHost env d) seenTs, Output.probe (loopHost env d),
            Output.allLog (loopHost env d)
              (upsertHost st.db (loopHost env d) seenTs).1.firstSeen
              (upsertHost st.db (loopHost env d) seenTs).1.lastSeen
              (probeHostDetails (env.net st.probes) (loopHost env d) httpsOnly).1.status
              (sanitizeCSV
                (probeHostDetails (env.net st.probes) (loopHost env d) httpsOnly).1.title)
              (probeHostDetails (env.net st.probes) (loopHost env d) httpsOnly).1.scheme]
          ++ (if (probeHostDetails (env.net st.probes) (loopHost env d) httpsOnly).1.live
                = true ∧ timeUnix seenTs > ageCutoff
              then [Output.liveLog (loopHost env d)
                (probeHostDetails (env.net st.probes) (loopHost env d) httpsOnly).1.status
                (sanitizeCSV
                  (probeHostDetails (env.net st.probes) (loopHost env d) httpsOnly).1.title)
                (probeHostDetails (env.net st.probes) (loopHost env d) httpsOnly).1.scheme,
                Output.markLive (loopHost env d)]
              else [])
          ++ (if (upsertHost st.db (loopHost env d) seenTs).1.known = false
              then [Output.newNotice (loopHost env d) root
                (probeHostDetails (env.net st.probes) (loopHost env d) httpsOnly).1.status
                (oneLine
                  (probeHostDetails (env.net st.probes) (loopHost env d) httpsOnly).1.title)]
              else [])) := by
  unfold loopKeeps loopHost at h
  unfold handleDomain loopHost
  simp only []
  generalize trimWildcard (toLower env.lowerTable (trimSpace d)) = host at h ⊢
  by_cases h1 : host = []
  · simp [h1] at h
  · by_cases h2 : containsBlank host = true
    · simp [h2] at h
    · simp only [h1, h2, Bool.false_eq_true, or_self, if_false]
      cases hr : registrableRoot env.publicSuffix host with
      | error e => simp [hr] at h
      | ok root =>
        simp only [hr, h1, h2, ne_eq, not_false_eq_true, decide_True, Bool.not_false,
          Bool.true_and, Bool.and_self] at h
        simp only [h, not_true_eq_false, if_false]
        exact ⟨root, rfl, h, rfl⟩

theorem newNoticeCount_live (host h : GoString) (c : Prop) [Decidable c] (a : Int)
    (t u : GoString) :
    newNoticeCount host (if c then [Output.liveLog h a t u, Output.markLive h] else [])
      = 0 := by
  split <;> rfl

/-- A notice for `host` is only printed by the call that creates its record. -/
theorem handleDomain_notice (env : Env) (ageCutoff : Int) (targets : GoString → Bool)
    (httpsOnly : Bool) (seenTs : Int) (st : State) (d host : GoString) :
    newNoticeCount host (handleDomain env ageCutoff targets httpsOnly seenTs st d).2
        + presentNat st.db host
      ≤ presentNat (handleDomain env ageCutoff targets httpsOnly seenTs st d).1.db host := by
  cases hk : loopKeeps env targets (loopHost env d) with
  | false =>
    rw [handleDomain_dropped env ageCutoff targets httpsOnly seenTs st d hk]
    simp [newNoticeCount]
  | true =>
    obtain ⟨root, _, _, heq⟩ :=
      handleDomain_kept_eq env ageCutoff targets httpsOnly seenTs st d hk
    rw [heq]
    generalize loopHost env d = h
    generalize (probeHostDetails (env.net st.probes) h httpsOnly).1 = pr
    have hdb : ∀ c : Prop, [Decidable c] →
        presentNat (if c then markLive (upsertHost st.db h seenTs).2 h
          else (upsertHost st.db h seenTs).2) host
          = presentNat (upsertHost st.db h seenTs).2 host := by
      intro c _
      unfold presentNat
      split <;> simp [present_markLive]
    simp only [hdb, newNoticeCount_append, newNoticeCount_live]
    simp only [newNoticeCount, Nat.add_zero, Nat.zero_add]
    rw [upsertHost_known]
    by_cases hne : host = h
    · subst hne
      unfold presentNat
      rw [present_upsertHost_self]
      cases hp : present st.db host <;> simp [newNoticeCount]
    · unfold presentNat
      rw [present_upsertHost_other st.db h host seenTs hne]
      have hne' : ¬ h = host := fun e => hne e.symm
      cases hp : present st.db h <;> simp [newNoticeCount, hne']

theorem handleDomains_notice (env : Env) (ageCutoff : Int) (targets : GoString → Bool)
    (httpsOnly : Bool) (seenTs : Int) (ds : List GoString) (st : State) (host : GoString) :
    newNoticeCount host (handleDomains env ageCutoff targets httpsOnly seenTs st ds).2
        + presentNat st.db host
      ≤ presentNat (handleDomains env ageCutoff targets httpsOnly seenTs st ds).1.db host := by
  induction ds generalizing st with
  | nil => simp [handleDomains, newNoticeCount]
  | cons d ds ih =>
    simp only [handleDomains, newNoticeCount_append]
    have h1 := handleDomain_notice env ageCutoff targets httpsOnly seenTs st d host
    have h2 := ih (handleDomain env ageCutoff targets httpsOnly seenTs st d).1
    omega

theorem handleMessage_notice (env : Env) (ageCutoff : Int) (targets : GoString → Bool)
    (httpsOnly : Bool) (st : State) (msg : Message) (host : GoString) :
    newNoticeCount host (handleMessage env ageCutoff targets httpsOnly st msg).2
        + presentNat st.db host
      ≤ presentNat (handleMessage env ageCutoff targets httpsOnly st msg).1.db host := by
  unfold handleMessage
  split
  · simp [newNoticeCount]
  · simp only []
    split
    · simp [newNoticeCount]
    · exact handleDomains_notice env ageCutoff targets httpsOnly msg.Seen msg.AllDomains st host

theorem consume_notice (env : Env) (ageCutoff : Int) (targets : GoString → Bool)
    (httpsOnly : Bool) (msgs : List Message) (st : State) (host : GoString) :
    newNoticeCount host (consumeLoopWithContext env ageCutoff targets httpsOnly st msgs).2
        + presentNat st.db host
      ≤ presentNat (consumeLoopWithContext env ageCutoff targets httpsOnly st msgs).1.db
          host := by
  induction msgs generalizing st with
  | nil => simp [consumeLoopWithContext, newNoticeCount]
  | cons m msgs ih =>
    simp only [consumeLoopWithContext, newNoticeCount_append]
    have h1 := handleMessage_notice env ageCutoff targets httpsOnly st m host
    have h2 := ih (handleMessage env ageCutoff targets httpsOnly st m).1
    omega

/-- C4: from the empty store, an `upsertHost` call for a host returns
`known = true` exactly when an earlier `upsertHost` call for that host was made,
whatever calls for other hosts and `markLive` calls come between: the first call
returns `false`, every later one `true`. Hence the consumer, started on the empty
store, prints at most one "[NEW]" notice for a host. -/
theorem known_iff_upserted_before (pre : List StoreOp) (host : GoString) (seen : Int)
    (env : Env) (ageCutoff : Int) (targets : GoString → Bool) (httpsOnly : Bool)
    (msgs : List Message) :
    ((upsertHost (runOps [] pre) host seen).1.known = true ↔
      ∃ earlier, StoreOp.upsert host earlier ∈ pre) ∧
    ((∀ earlier, StoreOp.upsert host earlier ∉ pre) →
      (upsertHost (runOps [] pre) host seen).1.known = false) ∧
    newNoticeCount host
      (consumeLoopWithContext env ageCutoff targets httpsOnly ⟨[], 0⟩ msgs).2 ≤ 1 := by
  have hiff : (upsertHost (runOps [] pre) host seen).1.known = true ↔
      ∃ earlier, StoreOp.upsert host earlier ∈ pre := by
    rw [upsertHost_known, present_runOps]
    simp [present, lookup_nil]
  refine ⟨hiff, ?_, ?_⟩
  · intro hno
    cases hk : (upsertHost (runOps [] pre) host seen).1.known with
    | false => rfl
    | true =>
      obtain ⟨s, hs⟩ := hiff.mp hk
      exact absurd hs (hno s)
  · have h := consume_notice env ageCutoff targets httpsOnly msgs ⟨[], 0⟩ host
    have hle := presentNat_le_one
      (consumeLoopWithContext env ageCutoff targets httpsOnly ⟨[], 0⟩ msgs).1.db host
    omega

/-- C4 on concrete call sequences: a host never upserted before is new, a host
upserted before is known. -/
theorem known_iff_upserted_before_witness :
    (upsertHost (runOps [] [StoreOp.upsert "b.example.com".toList 2,
        StoreOp.markLive "a.example.com".toList]) "a.example.com".toList 3).1.known = false ∧
    (upsertHost (runOps [] [StoreOp.upsert "a.example.com".toList 1,
        StoreOp.upsert "b.example.com".toList 2]) "a.example.com".toList 3).1.known = true :=
  ⟨(known_iff_upserted_before [StoreOp.upsert "b.example.com".toList 2,
        StoreOp.markLive "a.example.com".toList] "a.example.com".toList 3
        sampleEnv 0 (fun _ => true) false []).2.1 (by simp),
   (known_iff_upserted_before [StoreOp.upsert "a.example.com".toList 1,
        StoreOp.upsert "b.example.com".toList 2] "a.example.com".toList 3
        sampleEnv 0 (fun _ => true) false []).1.mpr ⟨1, by decide⟩⟩

/-! ## Liveness prober -/

/-- C8: with DNS and every GET as oracles. When the lookup succeeds and
`httpsOnly` is false: a successful HTTP GET gives `(true, status, title, "http")`
with the one attempt `http`; a failed HTTP GET followed by a successful HTTPS GET
gives `(true, status, title, "https")`; two failures give `(false, 0, "", "")`.
When the lookup succeeds and `httpsOnly` is true the attempts are exactly one
HTTPS GET, whose success gives `(true, status, title, "https")` and whose failure
gives `(false, 0, "", "")`. When the lookup fails the result is
`(false, 0, "", "")` and no GET is attempted. -/
theorem probeHostDetails_spec (net : Net) (host : GoString) :
    (net.lookupHost host = true →
      (∀ code body, net.httpGet Scheme.http host = some (code, body) →
        probeHostDetails net host false
          = (⟨true, code, extractTitle body, "http".toList⟩, [Scheme.http])) ∧
      (net.httpGet Scheme.http host = none →
        ∀ code body, net.httpGet Scheme.https host = some (code, body) →
        probeHostDetails net host false
          = (⟨true, code, extractTitle body, "https".toList⟩, [Scheme.http, Scheme.https])) ∧
      (net.httpGet Scheme.http host = none → net.httpGet Scheme.https host = none →
        probeHostDetails net host false
          = (⟨false, 0, [], []⟩, [Scheme.http, Scheme.https])) ∧
      (probeHostDetails net host true).2 = [Scheme.https] ∧
      (∀ code body, net.httpGet Scheme.https host = some (code, body) →
        (probeHostDetails net host true).1
          = ⟨true, code, extractTitle body, "https".toList⟩) ∧
      (net.httpGet Scheme.https host = none →
        (probeHostDetails net host true).1 = ⟨false, 0, [], []⟩)) ∧
    (net.lookupHost host = false →
      ∀ httpsOnly, probeHostDetails net host httpsOnly = (⟨false, 0, [], []⟩, [])) := by
  constructor
  · intro hdns
    refine ⟨?_, ?_, ?_, ?_, ?_, ?_⟩
    · intro code body h
      simp [probeHostDetails, hdns, tryScheme, h]
    · intro h1 code body h2
      simp [probeHostDetails, hdns, tryScheme, h1, h2]
    · intro h1 h2
      simp [probeHostDetails, hdns, tryScheme, h1, h2]
    · cases h : net.httpGet Scheme.https host with
      | none => simp [probeHostDetails, hdns, tryScheme, h]
      | some v => obtain ⟨code, body⟩ := v; simp [probeHostDetails, hdns, tryScheme, h]
    · intro code body h
      simp [probeHostDetails, hdns, tryScheme, h]
    · intro h
      simp [probeHostDetails, hdns, tryScheme, h]
  · intro hdns httpsOnly
    simp [probeHostDetails, hdns]

/-- C8 on concrete networks: HTTP answers; HTTP fails and HTTPS answers 200;
every GET fails; HTTPS only; no DNS. -/
theorem probeHostDetails_spec_witness :
    probeHostDetails sampleNet "sub.example.com".toList false
      = (⟨true, 200, extractTitle "<title>ok</title>".toList, "http".toList⟩,
          [Scheme.http]) ∧
    probeHostDetails httpsOnlyNet "sub.example.com".toList false
      = (⟨true, 200, extractTitle "<title>secure</title>".toList, "https".toList⟩,
          [Scheme.http, Scheme.https]) ∧
    probeHostDetails silentNet "sub.example.com".toList false
      = (⟨false, 0, [], []⟩, [Scheme.http, Scheme.https]) ∧
    (probeHostDetails sampleNet "sub.example.com".toList true).2 = [Scheme.https] ∧
    (probeHostDetails sampleNet "sub.example.com".toList true).1
      = ⟨true, 200, extractTitle "<title>ok</title>".toList, "https".toList⟩ ∧
    (probeHostDetails silentNet "sub.example.com".toList true).1 = ⟨false, 0, [], []⟩ ∧
    probeHostDetails deadNet "sub.example.com".toList true = (⟨false, 0, [], []⟩, []) :=
  ⟨((probeHostDetails_spec sampleNet "sub.example.com".toList).1 rfl).1 200
      "<title>ok</title>".toList rfl,
   ((probeHostDetails_spec httpsOnlyNet "sub.example.com".toList).1 rfl).2.1 rfl 200
      "<title>secure</title>".toList rfl,
   ((probeHostDetails_spec silentNet "sub.example.com".toList).1 rfl).2.2.1 rfl rfl,
   ((probeHostDetails_spec sampleNet "sub.example.com".toList).1 rfl).2.2.2.1,
   ((probeHostDetails_spec sampleNet "sub.example.com".toList).1 rfl).2.2.2.2.1 200
      "<title>ok</title>".toList rfl,
   ((probeHostDetails_spec silentNet "sub.example.com".toList).1 rfl).2.2.2.2.2 rfl,
   (probeHostDetails_spec deadNet "sub.example.com".toList).2 rfl true⟩

/-! ## Target matcher -/

theorem splitOn_ne_nil (sep : Char) (s : GoString) : splitOn sep s ≠ [] := by
  cases s with
  | nil => simp [splitOn]
  | cons c cs =>
    unfold splitOn
    split
    · simp
    · split <;> simp

theorem splitOn_cons_sep (sep : Char) (cs : GoString) :
    splitOn sep (sep :: cs) = [] :: splitOn sep cs := by
  simp [splitOn]

theorem splitOn_cons_ne (sep c : Char) (cs : GoString) (h : c ≠ sep) :
    ∃ p ps, splitOn sep cs = p :: ps ∧ splitOn sep (c :: cs) = (c :: p) :: ps := by
  cases hs : splitOn sep cs with
  | nil => exact absurd hs (splitOn_ne_nil sep cs)
  | cons p ps =>
    refine ⟨p, ps, rfl, ?_⟩
    simp [splitOn, h, hs]

theorem joinDot_cons_cons (p q : GoString) (rest : List GoString) :
    joinDot (p :: q :: rest) = p ++ '.' :: joinDot (q :: rest) := rfl

theorem joinDot_cons_of_ne_nil (p : GoString) (rest : List GoString) (h : rest ≠ []) :
    joinDot (p :: rest) = p ++ '.' :: joinDot rest := by
  cases rest with
  | nil => exact absurd rfl h
  | cons q rest => rfl

/-- Joining the pieces of a split gives the string back. -/
theorem joinDot_splitDot (s : GoString) : joinDot (splitDot s) = s := by
  unfold splitDot
  induction s with
  | nil => rfl
  | cons c cs ih =>
    by_cases hc : c = '.'
    · subst hc
      rw [splitOn_cons_sep, joinDot_cons_of_ne_nil _ _ (splitOn_ne_nil _ _), ih]
      rfl
    · obtain ⟨p, ps, h1, h2⟩ := splitOn_cons_ne '.' c cs hc
      rw [h2]
      rw [h1] at ih
      cases ps with
      | nil =>
        simp only [joinDot] at ih ⊢
        rw [ih]
      | cons q rest =>
        rw [joinDot_cons_cons] at ih ⊢
        rw [List.cons_append, ih]

/-- No piece of a split contains the separator. -/
theorem splitOn_no_sep (sep : Char) (s : GoString) : ∀ p ∈ splitOn sep s, sep ∉ p := by
  induction s with
  | nil => simp [splitOn]
  | cons c cs ih =>
    by_cases hc : c = sep
    · subst hc
      rw [splitOn_cons_sep]
      intro p hp
      rcases List.mem_cons.mp hp with rfl | hp
      · simp
      · exact ih p hp
    · obtain ⟨q, qs, h1, h2⟩ := splitOn_cons_ne sep c cs hc
      rw [h2]
      rw [h1] at ih
      intro p hp
      rcases List.mem_cons.mp hp with rfl | hp
      · intro hmem
        rcases List.mem_cons.mp hmem with e | hmem
        · exact hc e.symm
        · exact ih q (List.mem_cons_self _ _) hmem
      · exact ih p (List.mem_cons_of_mem _ hp)

theorem splitOn_of_no_sep (sep : Char) (p : GoString) (h : sep ∉ p) : splitOn sep p = [p] := by
  induction p with
  | nil => rfl
  | cons c cs ih =>
    have hc : c ≠ sep := fun e => h (e ▸ List.mem_cons_self _ _)
    have hcs : sep ∉ cs := fun m => h (List.mem_cons_of_mem _ m)
    simp [splitOn, hc, ih hcs]

theorem splitOn_append_sep (sep : Char) (p rest : GoString) (h : sep ∉ p) :
    splitOn sep (p ++ sep :: rest) = p :: splitOn sep rest := by
  induction p with
  | nil => simp [splitOn]
  | cons c cs ih =>
    have hc : c ≠ sep := fun e => h (e ▸ List.mem_cons_self _ _)
    have hcs : sep ∉ cs := fun m => h (List.mem_cons_of_mem _ m)
    simp [splitOn, hc, ih hcs]

/-- Splitting a join of dot-free pieces gives the pieces back. -/
theorem splitDot_joinDot (parts : List GoString) (hne : parts ≠ [])
    (h : ∀ p ∈ parts, '.' ∉ p) : splitDot (joinDot parts) = parts := by
  unfold splitDot
  induction parts with
  | nil => exact absurd rfl hne
  | cons p rest ih =>
    cases rest with
    | nil => exact splitOn_of_no_sep '.' p (h p (List.mem_cons_self _ _))
    | cons q rest =>
      rw [joinDot_cons_cons, splitOn_append_sep '.' p _ (h p (List.mem_cons_self _ _))]
      rw [ih (by simp) (fun x hx => h x (List.mem_cons_of_mem _ hx))]

theorem containsDot_iff (s : GoString) : containsDot s = true ↔ '.' ∈ s := by
  unfold containsDot
  simp [List.any_eq_true]

/-- The shape of a successful `registrableRoot` call. -/
theorem registrableRoot_ok_iff (publicSuffix : GoString → GoString) (host root : GoString) :
    registrableRoot publicSuffix host = Except.ok root ↔
      publicSuffix host ≠ [] ∧ '.' ∈ host ∧
      (splitDot (publicSuffix host)).length + 1 ≤ (splitDot host).length ∧
      root = joinDot ((splitDot host).drop
        ((splitDot host).length - (splitDot (publicSuffix host)).length - 1)) := by
  unfold registrableRoot
  simp only []
  by_cases h1 : publicSuffix host = []
  · simp [h1]
  · by_cases h2 : containsDot host = true
    · have h2' := (containsDot_iff host).mp h2
      by_cases h3 : (splitDot host).length < (splitDot (publicSuffix host)).length + 1
      · simp only [h1, h2, h3, not_true_eq_false, or_self, if_false, if_true]
        constructor
        · intro h; cases h
        · rintro ⟨_, _, h, _⟩; omega
      · simp only [h1, h2, h3, not_true_eq_false, or_self, if_false]
        constructor
        · intro h
          injection h with h
          exact ⟨h1, h2', by omega, h.symm⟩
        · rintro ⟨_, _, _, h⟩
          rw [h]
    · have h2' : '.' ∉ host := fun m => h2 ((containsDot_iff host).mpr m)
      simp [h1, h2, h2']

theorem drop_pred_append (pre sfx : List GoString) (hpre : pre ≠ []) :
    ∃ last, last ∈ pre ∧ (pre ++ sfx).drop (pre.length - 1) = last :: sfx := by
  rcases List.eq_nil_or_concat pre with h | ⟨init, last, h⟩
  · exact absurd h hpre
  · rw [List.concat_eq_append] at h
    subst h
    refine ⟨last, by simp, ?_⟩
    have hlen : (init ++ [last]).length - 1 = init.length := by simp
    rw [hlen, List.append_assoc]
    exact List.drop_left' rfl

/-- C1: whenever `registrableRoot` succeeds, its result consists of the last
`k + 1` dot-separated labels of the host, `k` being the number of labels of the
suffix the public-suffix lookup returns; and when that suffix is made of the last
`k` labels of the host, the result is the suffix preceded by exactly one more
label. With `co.uk` as the suffix of both `www.a.example.co.uk` and
`example.co.uk`, both have root `example.co.uk`. -/
theorem registrableRoot_spec (publicSuffix : GoString → GoString) :
    (∀ host root, registrableRoot publicSuffix host = Except.ok root →
      root = joinDot ((splitDot host).drop
        ((splitDot host).length - ((splitDot (publicSuffix host)).length + 1))) ∧
      splitDot root = (splitDot host).drop
        ((splitDot host).length - ((splitDot (publicSuffix host)).length + 1)) ∧
      (splitDot root).length = (splitDot (publicSuffix host)).length + 1 ∧
      (splitDot (publicSuffix host) <:+ splitDot host →
        ∃ label, '.' ∉ label ∧ root = label ++ '.' :: publicSuffix host)) ∧
    (publicSuffix "www.a.example.co.uk".toList = "co.uk".toList →
      publicSuffix "example.co.uk".toList = "co.uk".toList →
      registrableRoot publicSuffix "www.a.example.co.uk".toList
        = Except.ok "example.co.uk".toList ∧
      registrableRoot publicSuffix "example.co.uk".toList
        = Except.ok "example.co.uk".toList) := by
  constructor
  · intro host root h
    obtain ⟨_, _, hlen, hroot⟩ := (registrableRoot_ok_iff publicSuffix host root).mp h
    have hsub : (splitDot host).length - (splitDot (publicSuffix host)).length - 1
        = (splitDot host).length - ((splitDot (publicSuffix host)).length + 1) := by omega
    rw [hsub] at hroot
    have hsplit : splitDot root = (splitDot host).drop
        ((splitDot host).length - ((splitDot (publicSuffix host)).length + 1)) := by
      rw [hroot]
      apply splitDot_joinDot
      · intro hnil
        have := congrArg List.length hnil
        rw [List.length_drop] at this
        simp only [List.length_nil] at this
        omega
      · intro p hp
        exact splitOn_no_sep '.' host p (List.mem_of_mem_drop hp)
    refine ⟨hroot, hsplit, ?_, ?_⟩
    · rw [hsplit, List.length_drop]
      omega
    · rintro ⟨pre, hpre⟩
      have hprelen : pre.length = (splitDot host).length
          - (splitDot (publicSuffix host)).length := by
        have := congrArg List.length hpre
        rw [List.length_append] at this
        omega
      have hne : pre ≠ [] := by
        intro e
        rw [e] at hprelen
        simp only [List.length_nil] at hprelen
        omega
      obtain ⟨last, hmem, hdrop⟩ := drop_pred_append pre (splitDot (publicSuffix host)) hne
      have hidx : (splitDot host).length - ((splitDot (publicSuffix host)).length + 1)
          = pre.length - 1 := by omega
      rw [hidx, ← hpre, hdrop] at hroot
      refine ⟨last, ?_, ?_⟩
      · apply splitOn_no_sep '.' host last
        show last ∈ splitDot host
        rw [← hpre]
        exact List.mem_append_left _ hmem
      · rw [hroot, joinDot_cons_of_ne_nil last (splitDot (publicSuffix host))
          (splitOn_ne_nil '.' (publicSuffix host)), joinDot_splitDot]
  · intro h1 h2
    constructor
    · rw [registrableRoot_ok_iff, h1]
      decide
    · rw [registrableRoot_ok_iff, h2]
      decide

/-- C1 on `www.a.example.co.uk` with a lookup that knows `co.uk`. -/
theorem registrableRoot_spec_witness :
    registrableRoot samplePublicSuffix "www.a.example.co.uk".toList
      = Except.ok "example.co.uk".toList ∧
    (∃ label, '.' ∉ label ∧ "example.co.uk".toList
      = label ++ '.' :: samplePublicSuffix "www.a.example.co.uk".toList) ∧
    (registrableRoot samplePublicSuffix "www.a.example.co.uk".toList
        = Except.ok "example.co.uk".toList ∧
      registrableRoot samplePublicSuffix "example.co.uk".toList
        = Except.ok "example.co.uk".toList) :=
  ⟨by decide,
   ((registrableRoot_spec samplePublicSuffix).1 "www.a.example.co.uk".toList
      "example.co.uk".toList (by decide)).2.2.2 ⟨["www".toList, "a".toList, "example".toList],
        by decide⟩,
   (registrableRoot_spec samplePublicSuffix).2 (by decide) (by decide)⟩

theorem splitOn_length_of_mem (sep : Char) (s : GoString) (h : sep ∈ s) :
    2 ≤ (splitOn sep s).length := by
  induction s with
  | nil => simp at h
  | cons c cs ih =>
    by_cases hc : c = sep
    · subst hc
      rw [splitOn_cons_sep, List.length_cons]
      have := List.length_pos.mpr (splitOn_ne_nil c cs)
      omega
    · obtain ⟨q, qs, h1, h2⟩ := splitOn_cons_ne sep c cs hc
      have hmem : sep ∈ cs := by
        rcases List.mem_cons.mp h with e | m
        · exact absurd e.symm hc
        · exact m
      have := ih hmem
      rw [h1] at this
      rw [h2]
      exact this

/-- C2, as the claim states it, fails on a host whose TLD is on no list: the
lookup does not know `zz` and answers with the last label, as the default rule of
the public-suffix list does, so `www.example.zz` has the suffix `zz` and
`registrableRoot` succeeds with `example.zz`. -/
theorem registrableRoot_unlisted_tld :
    samplePublicSuffix "www.example.zz".toList = "zz".toList ∧
    registrableRoot samplePublicSuffix "www.example.zz".toList
      = Except.ok "example.zz".toList ∧
    ¬ ∃ e, registrableRoot samplePublicSuffix "www.example.zz".toList = Except.error e := by
  refine ⟨by decide, by decide, ?_⟩
  rintro ⟨e, he⟩
  have hok : registrableRoot samplePublicSuffix "www.example.zz".toList
      = Except.ok "example.zz".toList := by decide
  rw [hok] at he
  cases he

/-- C2 (amended): `registrableRoot` fails exactly when the host has no dot, or the
public-suffix lookup returns the empty string for it, or the host has fewer labels
than the suffix has plus one; for every other host it succeeds. A host without a
dot fails, a host with the empty suffix fails, and a host that is its own suffix,
such as `co.uk`, fails. A TLD missing from the list is no reason to fail: when
the lookup answers with one non-empty label, every host with a dot resolves to
its last two labels. -/
theorem registrableRoot_error_iff (publicSuffix : GoString → GoString) (host : GoString) :
    ((∃ e, registrableRoot publicSuffix host = Except.error e) ↔
      ('.' ∉ host ∨ publicSuffix host = [] ∨
        (splitDot host).length < (splitDot (publicSuffix host)).length + 1)) ∧
    ((∃ root, registrableRoot publicSuffix host = Except.ok root) ↔
      ¬ ('.' ∉ host ∨ publicSuffix host = [] ∨
        (splitDot host).length < (splitDot (publicSuffix host)).length + 1)) ∧
    ('.' ∉ host → registrableRoot publicSuffix host = Except.error HostError.invalidHost) ∧
    (publicSuffix host = [] →
      registrableRoot publicSuffix host = Except.error HostError.invalidHost) ∧
    (publicSuffix host = host → ∃ e, registrableRoot publicSuffix host = Except.error e) ∧
    ('.' ∈ host → publicSuffix host ≠ [] → '.' ∉ publicSuffix host →
      registrableRoot publicSuffix host
        = Except.ok (joinDot ((splitDot host).drop ((splitDot host).length - 2)))) := by
  have hok : (∃ root, registrableRoot publicSuffix host = Except.ok root) ↔
      ¬ ('.' ∉ host ∨ publicSuffix host = [] ∨
        (splitDot host).length < (splitDot (publicSuffix host)).length + 1) := by
    constructor
    · rintro ⟨root, h⟩
      obtain ⟨h1, h2, h3, _⟩ := (registrableRoot_ok_iff publicSuffix host root).mp h
      rintro (h | h | h)
      · exact h h2
      · exact h1 h
      · omega
    · intro h
      refine ⟨_, (registrableRoot_ok_iff publicSuffix host _).mpr ⟨?_, ?_, ?_, rfl⟩⟩
      · exact fun e => h (Or.inr (Or.inl e))
      · exact Classical.not_not.mp (fun e => h (Or.inl e))
      · exact Nat.le_of_not_lt (fun e => h (Or.inr (Or.inr e)))
  have herr : (∃ e, registrableRoot publicSuffix host = Except.error e) ↔
      ('.' ∉ host ∨ publicSuffix host = [] ∨
        (splitDot host).length < (splitDot (publicSuffix host)).length + 1) := by
    constructor
    · rintro ⟨e, he⟩
      by_contra hcon
      obtain ⟨root, hr⟩ := hok.mpr hcon
      rw [he] at hr
      cases hr
    · intro h
      cases hr : registrableRoot publicSuffix host with
      | error e => exact ⟨e, rfl⟩
      | ok root => exact absurd h (hok.mp ⟨root, hr⟩)
  refine ⟨herr, hok, ?_, ?_, ?_, ?_⟩
  · intro h
    have h' : ¬ containsDot host = true := fun c => h ((containsDot_iff host).mp c)
    simp [registrableRoot, h']
  · intro h
    simp [registrableRoot, h]
  · intro h
    apply herr.mpr
    rw [h]
    exact Or.inr (Or.inr (Nat.lt_succ_self _))
  · intro hdot hne hone
    have hlen : (splitDot (publicSuffix host)).length = 1 := by
      unfold splitDot
      rw [splitOn_of_no_sep '.' _ hone]
      rfl
    have hparts : 2 ≤ (splitDot host).length := splitOn_length_of_mem '.' host hdot
    rw [registrableRoot_ok_iff]
    refine ⟨hne, hdot, by omega, ?_⟩
    rw [hlen, Nat.sub_sub]

/-- C2 on `localhost` (no dot), on `example.com.` (the lookup finds no suffix
after the last dot), on `co.uk` (a suffix itself), on `example.co.uk`, which
succeeds, and on `www.example.zz`, whose TLD the lookup does not know and which
resolves to `example.zz`. -/
theorem registrableRoot_error_iff_witness :
    registrableRoot samplePublicSuffix "localhost".toList
      = Except.error HostError.invalidHost ∧
    registrableRoot samplePublicSuffix "example.com.".toList
      = Except.error HostError.invalidHost ∧
    (∃ e, registrableRoot samplePublicSuffix "co.uk".toList = Except.error e) ∧
    (∃ root, registrableRoot samplePublicSuffix "example.co.uk".toList = Except.ok root) ∧
    registrableRoot samplePublicSuffix "www.example.zz".toList
      = Except.ok "example.zz".toList :=
  ⟨(registrableRoot_error_iff samplePublicSuffix "localhost".toList).2.2.1 (by decide),
   (registrableRoot_error_iff samplePublicSuffix "example.com.".toList).2.2.2.1 (by decide),
   (registrableRoot_error_iff samplePublicSuffix "co.uk".toList).2.2.2.2.1 (by decide),
   (registrableRoot_error_iff samplePublicSuffix "example.co.uk".toList).2.1.mpr
     (by decide),
   ((registrableRoot_error_iff samplePublicSuffix "www.example.zz".toList).2.2.2.2.2
     (by decide) (by decide) (by decide)).trans (by decide)⟩

/-! ## Event filter -/

theorem allLogHosts_append (a b : List Output) :
    allLogHosts (a ++ b) = allLogHosts a ++ allLogHosts b := by
  induction a with
  | nil => rfl
  | cons x a ih => cases x <;> simp [allLogHosts, ih]

theorem upsertHosts_append (a b : List Output) :
    upsertHosts (a ++ b) = upsertHosts a ++ upsertHosts b := by
  induction a with
  | nil => rfl
  | cons x a ih => cases x <;> simp [upsertHosts, ih]

theorem probeHosts_append (a b : List Output) :
    probeHosts (a ++ b) = probeHosts a ++ probeHosts b := by
  induction a with
  | nil => rfl
  | cons x a ih => cases x <;> simp [probeHosts, ih]

/-- What the loop body does for a name that gets past the guards: one upsert, one
probe and one "all" line for its host, a record of the host in the store, and no
change to the record of any other host. -/
theorem handleDomain_kept (env : Env) (ageCutoff : Int) (targets : GoString → Bool)
    (httpsOnly : Bool) (seenTs : Int) (st : State) (d : GoString)
    (h : loopKeeps env targets (loopHost env d) = true) :
    upsertHosts (handleDomain env ageCutoff targets httpsOnly seenTs st d).2
      = [loopHost env d] ∧
    probeHosts (handleDomain env ageCutoff targets httpsOnly seenTs st d).2
      = [loopHost env d] ∧
    allLogHosts (handleDomain env ageCutoff targets httpsOnly seenTs st d).2
      = [loopHost env d] ∧
    (handleDomain env ageCutoff targets httpsOnly seenTs st d).1.probes = st.probes + 1 ∧
    present (handleDomain env ageCutoff targets httpsOnly seenTs st d).1.db
      (loopHost env d) = true ∧
    ∀ other, other ≠ loopHost env d →
      lookup (handleDomain env ageCutoff targets httpsOnly seenTs st d).1.db other
        = lookup st.db other := by
  obtain ⟨root, _, _, heq⟩ :=
    handleDomain_kept_eq env ageCutoff targets httpsOnly seenTs st d h
  rw [heq]
  generalize loopHost env d = host
  generalize (probeHostDetails (env.net st.probes) host httpsOnly).1 = pr
  refine ⟨?_, ?_, ?_, rfl, ?_, ?_⟩
  · simp only [upsertHosts_append]
    split <;> split <;> rfl
  · simp only [probeHosts_append]
    split <;> split <;> rfl
  · simp only [allLogHosts_append]
    split <;> split <;> rfl
  · show present (if _ then _ else _) host = true
    split
    · rw [present_markLive]
      exact present_upsertHost_self _ _ _
    · exact present_upsertHost_self _ _ _
  · intro other hne
    show lookup (if _ then _ else _) other = _
    split
    · rw [lookup_markLive_other _ _ _ hne]
      exact upsertHost_other _ _ _ _ hne
    · exact upsertHost_other _ _ _ _ hne

theorem handleDomain_present_mono (env : Env) (ageCutoff : Int) (targets : GoString → Bool)
    (httpsOnly : Bool) (seenTs : Int) (st : State) (d host : GoString)
    (h : present st.db host = true) :
    present (handleDomain env ageCutoff targets httpsOnly seenTs st d).1.db host = true := by
  have hn := handleDomain_notice env ageCutoff targets httpsOnly seenTs st d host
  unfold presentNat at hn
  rw [h] at hn
  simp only [if_true] at hn
  by_contra hc
  simp only [hc, if_false] at hn
  omega

theorem handleDomains_present_mono (env : Env) (ageCutoff : Int)
    (targets : GoString → Bool) (httpsOnly : Bool) (seenTs : Int) (ds : List GoString)
    (st : State) (host : GoString) (h : present st.db host = true) :
    present (handleDomains env ageCutoff targets httpsOnly seenTs st ds).1.db host = true := by
  induction ds generalizing st with
  | nil => exact h
  | cons d ds ih =>
    simp only [handleDomains]
    exact ih _ (handleDomain_present_mono env ageCutoff targets httpsOnly seenTs st d host h)

/-- The loop over the names of a message: the upserted, probed and logged hosts
are the kept names in order, and no other host has its record touched. -/
theorem handleDomains_forwarded (env : Env) (ageCutoff : Int) (targets : GoString → Bool)
    (httpsOnly : Bool) (seenTs : Int) (ds : List GoString) (st : State) :
    upsertHosts (handleDomains env ageCutoff targets httpsOnly seenTs st ds).2
      = (ds.map (loopHost env)).filter (loopKeeps env targets) ∧
    probeHosts (handleDomains env ageCutoff targets httpsOnly seenTs st ds).2
      = (ds.map (loopHost env)).filter (loopKeeps env targets) ∧
    allLogHosts (handleDomains env ageCutoff targets httpsOnly seenTs st ds).2
      = (ds.map (loopHost env)).filter (loopKeeps env targets) ∧
    (handleDomains env ageCutoff targets httpsOnly seenTs st ds).1.probes
      = st.probes + ((ds.map (loopHost env)).filter (loopKeeps env targets)).length ∧
    (∀ host ∈ (ds.map (loopHost env)).filter (loopKeeps env targets),
      present (handleDomains env ageCutoff targets httpsOnly seenTs st ds).1.db host
        = true) ∧
    (∀ host, host ∉ (ds.map (loopHost env)).filter (loopKeeps env targets) →
      lookup (handleDomains env ageCutoff targets httpsOnly seenTs st ds).1.db host
        = lookup st.db host) := by
  induction ds generalizing st with
  | nil => simp [handleDomains, allLogHosts, upsertHosts, probeHosts]
  | cons d ds ih =>
    simp only [handleDomains, allLogHosts_append, upsertHosts_append, probeHosts_append,
      List.map_cons]
    cases hk : loopKeeps env targets (loopHost env d) with
    | false =>
      rw [handleDomain_dropped env ageCutoff targets httpsOnly seenTs st d hk]
      rw [List.filter_cons_of_neg (by simp [hk])]
      simpa [allLogHosts, upsertHosts, probeHosts] using ih st
    | true =>
      obtain ⟨k0, k0p, k1, k2, k3, k4⟩ :=
        handleDomain_kept env ageCutoff targets httpsOnly seenTs st d hk
      obtain ⟨i0, i0p, i1, i2, i3, i4⟩ :=
        ih (handleDomain env ageCutoff targets httpsOnly seenTs st d).1
      rw [List.filter_cons_of_pos (by simp [hk])]
      refine ⟨?_, ?_, ?_, ?_, ?_, ?_⟩
      · rw [k0, i0]
        rfl
      · rw [k0p, i0p]
        rfl
      · rw [k1, i1]
        rfl
      · rw [i2, k2, List.length_cons]
        omega
      · intro host hmem
        rcases List.mem_cons.mp hmem with rfl | hmem
        · exact handleDomains_present_mono env ageCutoff targets httpsOnly seenTs ds _ _ k3
        · exact i3 host hmem
      · intro host hnot
        have hne : host ≠ loopHost env d := fun e => hnot (e ▸ List.mem_cons_self _ _)
        have hrest : host ∉ List.filter (loopKeeps env targets) (List.map (loopHost env) ds) :=
          fun m => hnot (List.mem_cons_of_mem _ m)
        rw [i4 host hrest, k4 host hne]

/-- The message branch in terms of the tests the loop makes. -/
theorem handleMessage_loop (env : Env) (ageCutoff : Int) (targets : GoString → Bool)
    (httpsOnly : Bool) (st : State) (msg : Message) :
    upsertHosts (handleMessage env ageCutoff targets httpsOnly st msg).2
      = loopForwarded env ageCutoff targets msg ∧
    probeHosts (handleMessage env ageCutoff targets httpsOnly st msg).2
      = loopForwarded env ageCutoff targets msg ∧
    allLogHosts (handleMessage env ageCutoff targets httpsOnly st msg).2
      = loopForwarded env ageCutoff targets msg ∧
    (handleMessage env ageCutoff targets httpsOnly st msg).1.probes
      = st.probes + (loopForwarded env ageCutoff targets msg).length ∧
    (∀ host ∈ loopForwarded env ageCutoff targets msg,
      present (handleMessage env ageCutoff targets httpsOnly st msg).1.db host = true) ∧
    (∀ host, host ∉ loopForwarded env ageCutoff targets msg →
      lookup (handleMessage env ageCutoff targets httpsOnly st msg).1.db host
        = lookup st.db host) ∧
    (msg.MessageType ≠ "certificate_update".toList ∨ timeUnix msg.Seen < ageCutoff →
      handleMessage env ageCutoff targets httpsOnly st msg = (st, [])) := by
  unfold handleMessage loopForwarded
  generalize "certificate_update".toList = kind
  by_cases h1 : msg.MessageType = kind
  · by_cases h2 : timeUnix msg.Seen < ageCutoff
    · simp [h1, h2, allLogHosts, upsertHosts, probeHosts]
    · simp only [h1, h2, ne_eq, not_true_eq_false, if_false, not_false_eq_true, and_self,
        if_true, false_or, false_implies, true_implies, and_true]
      exact handleDomains_forwarded env ageCutoff targets httpsOnly msg.Seen
        msg.AllDomains st
  · simp [h1, allLogHosts, upsertHosts, probeHosts]

theorem trimWildcard_eq_spec (s : GoString) : trimWildcard s = specStripWildcard s := by
  rcases s with _ | ⟨a, _ | ⟨b, rest⟩⟩
  · rfl
  · by_cases ha : a = '*' <;> simp [trimWildcard, specStripWildcard, ha]
  · by_cases ha : a = '*'
    · by_cases hb : b = '.'
      · subst ha hb
        simp [trimWildcard, specStripWildcard]
      · subst ha
        simp [trimWildcard, specStripWildcard, hb]
    · simp [trimWildcard, specStripWildcard, ha]

theorem containsBlank_eq_spec (s : GoString) : containsBlank s = specHasBlank s := by
  unfold containsBlank specHasBlank
  rw [Bool.eq_iff_iff]
  simp only [List.any_eq_true, Bool.or_eq_true, beq_iff_eq, decide_eq_true_eq]
  constructor
  · rintro ⟨c, hc, ((h | h) | h) | h⟩
    · exact Or.inl (h ▸ hc)
    · exact Or.inr (Or.inl (h ▸ hc))
    · exact Or.inr (Or.inr (Or.inl (h ▸ hc)))
    · exact Or.inr (Or.inr (Or.inr (h ▸ hc)))
  · rintro (h | h | h | h)
    · exact ⟨_, h, Or.inl (Or.inl (Or.inl rfl))⟩
    · exact ⟨_, h, Or.inl (Or.inl (Or.inr rfl))⟩
    · exact ⟨_, h, Or.inl (Or.inr rfl)⟩
    · exact ⟨_, h, Or.inr rfl⟩

/-- Lower-casing keeps white space white space and other characters other, when
the case table does so. -/
theorem isSpace_toLowerRune (table : Char → Char)
    (htable : ∀ c, isSpace (table c) = isSpace c) (c : Char) :
    isSpace (toLowerRune table c) = isSpace c := by
  unfold toLowerRune
  split
  · split
    · rename_i h
      have hup : isSpace (Char.ofNat (c.toNat + 32)) = false := by
        obtain ⟨h1, h2⟩ := h
        generalize c.toNat = n at h1 h2
        interval_cases n <;> decide
      have hc : isSpace c = false := by
        obtain ⟨h1, h2⟩ := h
        unfold isSpace
        simp only [Bool.or_eq_false_iff, decide_eq_false_iff_not, Bool.and_eq_false_imp,
          decide_eq_true_eq]
        omega
      rw [hup, hc]
    · rfl
  · exact htable c

/-- Lower-casing commutes with trimming. -/
theorem toLower_trimSpace (table : Char → Char)
    (htable : ∀ c, isSpace (table c) = isSpace c) (s : GoString) :
    toLower table (trimSpace s) = trimSpace (toLower table s) := by
  have hcomp : (isSpace ∘ toLowerRune table) = isSpace := by
    funext c
    exact isSpace_toLowerRune table htable c
  unfold toLower trimSpace
  rw [List.dropWhile_map, hcomp, ← List.map_reverse, List.dropWhile_map, hcomp,
    ← List.map_reverse]

theorem loopHost_eq_spec (env : Env) (htable : ∀ c, isSpace (env.lowerTable c) = isSpace c)
    (d : GoString) : loopHost env d = specNormalize env d := by
  unfold loopHost specNormalize
  rw [toLower_trimSpace env.lowerTable htable, trimWildcard_eq_spec]
  rfl

theorem loopKeeps_eq_spec (env : Env) (targets : GoString → Bool) (host : GoString) :
    loopKeeps env targets host = specKeeps env targets host := by
  unfold loopKeeps specKeeps
  rw [containsBlank_eq_spec]

theorem wrapInt64_of_range (x : Int) (hlo : -(2 : Int) ^ 63 ≤ x) (hhi : x < 2 ^ 63) :
    wrapInt64 x = x := by
  unfold wrapInt64
  rw [Int.emod_eq_of_lt (by omega) (by omega)]
  omega

/-- For seconds that fit, `time.Unix(sec, 0)` is the instant `sec` seconds after
the epoch. -/
theorem timeUnix_of_range (sec : Int) (hlo : -(2 : Int) ^ 63 ≤ sec)
    (hhi : sec < 2 ^ 63 - 62135596800) : timeUnix sec = specInstant sec := by
  unfold timeUnix specInstant unixToInternal
  rw [wrapInt64_of_range _ (by omega) (by omega)]
  omega

theorem loopForwarded_eq_spec (env : Env) (ageCutoff : Int) (targets : GoString → Bool)
    (msg : Message) (hlo : -(2 : Int) ^ 63 ≤ msg.Seen)
    (hhi : msg.Seen < 2 ^ 63 - 62135596800)
    (htable : ∀ c, isSpace (env.lowerTable c) = isSpace c) :
    loopForwarded env ageCutoff targets msg = specForwarded env ageCutoff targets msg := by
  unfold loopForwarded specForwarded
  rw [timeUnix_of_range msg.Seen hlo hhi]
  have h1 : loopHost env = specNormalize env := funext (loopHost_eq_spec env htable)
  have h2 : loopKeeps env targets = specKeeps env targets :=
    funext (loopKeeps_eq_spec env targets)
  rw [h1, h2]

/-- C6, as the claim states it, fails when `seen` is so large that `time.Unix`
wraps: the message is a `certificate_update`, its seen instant is not before the
cutoff and `sub.example.com` passes every test on names, so the claim forwards
it; the code compares a wrapped time, finds it before the cutoff and forwards
nothing. -/
theorem handleMessage_drops_wrapped_seen :
    wrappedSeenMessage.MessageType = "certificate_update".toList ∧
    ¬ specInstant wrappedSeenMessage.Seen < specInstant 1700000000 ∧
    specForwarded sampleEnv (specInstant 1700000000)
      (fun r => decide (r = "example.com".toList)) wrappedSeenMessage
      = ["sub.example.com".toList] ∧
    handleMessage sampleEnv (specInstant 1700000000)
      (fun r => decide (r = "example.com".toList)) false ⟨[], 0⟩ wrappedSeenMessage
      = (⟨[], 0⟩, []) := by
  decide

/-- C6 (amended): for every message whose seen value is an `int64` below
`2^63 - 62135596800`, where `time.Unix` does not wrap, the hosts passed to
`upsertHost`, to `probeHostDetails` and to the "all" log are, each in order,
exactly the domain names of the event after lower-casing, trimming white space and
stripping one leading `*.` that are non-empty, hold no space, tab, CR or LF, and
whose registrable root resolves and is a target; each of them has a record in the
store afterwards and the record of no other host is created or changed. Nothing
is forwarded when the type is not `certificate_update` or the seen instant is
before the cutoff. The case table used above ASCII is taken to map white space to
white space and other characters to other characters. -/
theorem handleMessage_forwarded (env : Env) (ageCutoff : Int) (targets : GoString → Bool)
    (httpsOnly : Bool) (st : State) (msg : Message)
    (hlo : -(2 : Int) ^ 63 ≤ msg.Seen) (hhi : msg.Seen < 2 ^ 63 - 62135596800)
    (htable : ∀ c, isSpace (env.lowerTable c) = isSpace c) :
    upsertHosts (handleMessage env ageCutoff targets httpsOnly st msg).2
      = specForwarded env ageCutoff targets msg ∧
    probeHosts (handleMessage env ageCutoff targets httpsOnly st msg).2
      = specForwarded env ageCutoff targets msg ∧
    allLogHosts (handleMessage env ageCutoff targets httpsOnly st msg).2
      = specForwarded env ageCutoff targets msg ∧
    (handleMessage env ageCutoff targets httpsOnly st msg).1.probes
      = st.probes + (specForwarded env ageCutoff targets msg).length ∧
    (∀ host ∈ specForwarded env ageCutoff targets msg,
      present (handleMessage env ageCutoff targets httpsOnly st msg).1.db host = true) ∧
    (∀ host, host ∉ specForwarded env ageCutoff targets msg →
      lookup (handleMessage env ageCutoff targets httpsOnly st msg).1.db host
        = lookup st.db host) ∧
    (msg.MessageType ≠ "certificate_update".toList ∨ specInstant msg.Seen < ageCutoff →
      handleMessage env ageCutoff targets httpsOnly st msg = (st, []) ∧
      specForwarded env ageCutoff targets msg = []) ∧
    (msg.MessageType = "certificate_update".toList → ¬ specInstant msg.Seen < ageCutoff →
      specForwarded env ageCutoff targets msg
        = (msg.AllDomains.map (specNormalize env)).filter (specKeeps env targets)) := by
  obtain ⟨h1, h2, h3, h4, h5, h6, h7⟩ :=
    handleMessage_loop env ageCutoff targets httpsOnly st msg
  have heq := loopForwarded_eq_spec env ageCutoff targets msg hlo hhi htable
  rw [heq] at h1 h2 h3 h4 h5 h6
  rw [timeUnix_of_range msg.Seen hlo hhi] at h7
  refine ⟨h1, h2, h3, h4, h5, h6, ?_, ?_⟩
  · intro hdrop
    refine ⟨h7 hdrop, ?_⟩
    unfold specForwarded
    apply if_neg
    rintro ⟨ht, hs⟩
    rcases hdrop with hd | hd
    · exact hd ht
    · exact hs hd
  · intro ht hs
    unfold specForwarded
    exact if_pos ⟨ht, hs⟩

/-- C6 on the end-to-end scenario with target `example.com`: of the names
`sub.example.com`, `evil.other.com`, ` *.Api.Example.COM `, `bad host.example.com`
and the empty name, exactly `sub.example.com` and `api.example.com` are upserted,
probed and logged when the event is seen after the cutoff, and nothing is when it
is seen before. -/
theorem handleMessage_forwarded_witness :
    specForwarded sampleEnv (specInstant 1600000000)
      (fun r => decide (r = "example.com".toList)) scenarioMessage
      = ["sub.example.com".toList, "api.example.com".toList] ∧
    upsertHosts (handleMessage sampleEnv (specInstant 1600000000)
      (fun r => decide (r = "example.com".toList)) false ⟨[], 0⟩ scenarioMessage).2
      = ["sub.example.com".toList, "api.example.com".toList] ∧
    probeHosts (handleMessage sampleEnv (specInstant 1600000000)
      (fun r => decide (r = "example.com".toList)) false ⟨[], 0⟩ scenarioMessage).2
      = ["sub.example.com".toList, "api.example.com".toList] ∧
    allLogHosts (handleMessage sampleEnv (specInstant 1600000000)
      (fun r => decide (r = "example.com".toList)) false ⟨[], 0⟩ scenarioMessage).2
      = ["sub.example.com".toList, "api.example.com".toList] ∧
    lookup (handleMessage sampleEnv (specInstant 1600000000)
      (fun r => decide (r = "example.com".toList)) false ⟨[], 0⟩ scenarioMessage).1.db
      "evil.other.com".toList = lookup [] "evil.other.com".toList ∧
    handleMessage sampleEnv (specInstant 1800000000)
      (fun r => decide (r = "example.com".toList)) false ⟨[], 0⟩ scenarioMessage
      = (⟨[], 0⟩, []) :=
  ⟨by decide,
   ((handleMessage_forwarded sampleEnv (specInstant 1600000000)
      (fun r => decide (r = "example.com".toList)) false ⟨[], 0⟩ scenarioMessage
      (by decide) (by decide) (fun _ => rfl)).1).trans (by decide),
   ((handleMessage_forwarded sampleEnv (specInstant 1600000000)
      (fun r => decide (r = "example.com".toList)) false ⟨[], 0⟩ scenarioMessage
      (by decide) (by decide) (fun _ => rfl)).2.1).trans (by decide),
   ((handleMessage_forwarded sampleEnv (specInstant 1600000000)
      (fun r => decide (r = "example.com".toList)) false ⟨[], 0⟩ scenarioMessage
      (by decide) (by decide) (fun _ => rfl)).2.2.1).trans (by decide),
   (handleMessage_forwarded sampleEnv (specInstant 1600000000)
      (fun r => decide (r = "example.com".toList)) false ⟨[], 0⟩ scenarioMessage
      (by decide) (by decide) (fun _ => rfl)).2.2.2.2.2.1 "evil.other.com".toList
      (by decide),
   ((handleMessage_forwarded sampleEnv (specInstant 1800000000)
      (fun r => decide (r = "example.com".toList)) false ⟨[], 0⟩ scenarioMessage
      (by decide) (by decide) (fun _ => rfl)).2.2.2.2.2.2.1 (Or.inr (by decide))).1⟩

/-! ## Live log -/

/-- C7 at the boundary: with the cutoff exactly at the second the event was seen,
the age filter accepts the event (`seen` is not before the cutoff), the host
survives and its probe reports it reachable, yet no "live" line is written and
the record is not marked live, because the re-check asks for `seen` strictly
after the cutoff. -/
theorem live_recheck_rejects_boundary :
    ¬ timeUnix boundaryMessage.Seen < timeUnix 1700000000 ∧
    allLogHosts (handleMessage sampleEnv (timeUnix 1700000000)
      (fun r => decide (r = "example.com".toList)) false ⟨[], 0⟩ boundaryMessage).2
      = ["sub.example.com".toList] ∧
    (probeHostDetails (sampleEnv.net 0) "sub.example.com".toList false).1.live = true ∧
    liveLogHosts (handleMessage sampleEnv (timeUnix 1700000000)
      (fun r => decide (r = "example.com".toList)) false ⟨[], 0⟩ boundaryMessage).2 = [] ∧
    lookup (handleMessage sampleEnv (timeUnix 1700000000)
      (fun r => decide (r = "example.com".toList)) false ⟨[], 0⟩ boundaryMessage).1.db
      "sub.example.com".toList = some (1700000000, 1700000000, false) := by
  decide

/-- Away from the boundary the re-check agrees with the filter: for an event seen
strictly after the cutoff, a surviving host gets a "live" line and is marked live
exactly when its probe reports it reachable. -/
theorem handleDomain_live_after_cutoff (env : Env) (ageCutoff : Int)
    (targets : GoString → Bool) (httpsOnly : Bool) (seenTs : Int) (st : State) (d : GoString)
    (hkeep : loopKeeps env targets (loopHost env d) = true)
    (hseen : timeUnix seenTs > ageCutoff) :
    liveLogHosts (handleDomain env ageCutoff targets httpsOnly seenTs st d).2
      = (if (probeHostDetails (env.net st.probes) (loopHost env d) httpsOnly).1.live
          = true then [loopHost env d] else []) ∧
    (handleDomain env ageCutoff targets httpsOnly seenTs st d).1.db
      = (if (probeHostDetails (env.net st.probes) (loopHost env d) httpsOnly).1.live
          = true then markLive (upsertHost st.db (loopHost env d) seenTs).2
            (loopHost env d)
        else (upsertHost st.db (loopHost env d) seenTs).2) := by
  unfold loopKeeps at hkeep
  unfold handleDomain loopHost
  unfold loopHost at hkeep
  simp only []
  generalize trimWildcard (toLower env.lowerTable (trimSpace d)) = host at hkeep ⊢
  by_cases h1 : host = []
  · simp [h1] at hkeep
  · by_cases h2 : containsBlank host = true
    · simp [h2] at hkeep
    · simp only [h1, h2, Bool.false_eq_true, or_self, if_false]
      cases hr : registrableRoot env.publicSuffix host with
      | error e => simp [hr] at hkeep
      | ok root =>
        simp only [hr, h1, h2, ne_eq, not_false_eq_true, decide_True, Bool.not_false,
          Bool.true_and, Bool.and_self] at hkeep
        simp only [hkeep, not_true_eq_false, if_false, hseen, and_true]
        cases (probeHostDetails (env.net st.probes) host httpsOnly).1.live <;>
          cases (upsertHost st.db host seenTs).1.known <;> simp [liveLogHosts]

/-! ## Title extraction: whitespace -/

theorem trimSpace_eq (s : GoString) :
    trimSpace s = (s.dropWhile isSpace).rdropWhile isSpace := rfl

theorem isSpace_of_isReSpace (c : Char) (h : isReSpace c = true) : isSpace c = true := by
  unfold isReSpace at h
  unfold isSpace
  simp only [Bool.or_eq_true, decide_eq_true_eq] at h ⊢
  rcases h with (((h | h) | h) | h) | h <;> simp [h]

/-- The first character of a trimmed string is not white space. -/
theorem trimSpace_head (s : GoString) (c : Char) (h : (trimSpace s).head? = some c) :
    isSpace c = false := by
  rw [trimSpace_eq] at h
  have hne : (s.dropWhile isSpace).rdropWhile isSpace ≠ [] := by
    intro e
    rw [e] at h
    cases h
  have hpre : (s.dropWhile isSpace).rdropWhile isSpace <+: s.dropWhile isSpace :=
    List.rdropWhile_prefix isSpace _
  have hhead := hpre.head hne
  have hne2 : s.dropWhile isSpace ≠ [] := by
    intro e
    apply hne
    rw [e]
    rfl
  have hnot := List.head_dropWhile_not isSpace s hne2
  rw [List.head?_eq_head hne] at h
  injection h with h
  rw [← h, hhead]
  exact hnot

/-- The last character of a trimmed string is not white space. -/
theorem trimSpace_getLast (s : GoString) (c : Char) (h : (trimSpace s).getLast? = some c) :
    isSpace c = false := by
  rw [trimSpace_eq] at h
  have hne : (s.dropWhile isSpace).rdropWhile isSpace ≠ [] := by
    intro e
    rw [e] at h
    cases h
  have hnot := List.rdropWhile_last_not isSpace (s.dropWhile isSpace) hne
  rw [List.getLast?_eq_getLast _ hne] at h
  injection h with h
  rw [← h]
  simpa using hnot

theorem collapseAux_replaceAll (x : Char) (hx : isReSpace x = true) (s : GoString) (b : Bool) :
    collapseAux b (replaceAll x [' '] s) = collapseAux b s := by
  have hsp : isReSpace ' ' = true := by decide
  induction s generalizing b with
  | nil => rfl
  | cons c cs ih =>
    by_cases hc : c = x
    · subst hc
      simp only [replaceAll, if_true, List.singleton_append, collapseAux, hsp, hx, ih]
    · simp only [replaceAll, hc, if_false, collapseAux, ih]

/-- What `extractTitle` does to the text of group 1. -/
theorem normalize_eq (content : GoString) :
    collapseSpace (replaceAll '\r' [' '] (replaceAll '\n' [' '] (trimSpace content)))
      = collapseSpace (trimSpace content) := by
  unfold collapseSpace
  rw [collapseAux_replaceAll '\r' (by decide), collapseAux_replaceAll '\n' (by decide)]

/-- After collapsing, the only character of class `\s` left is the space. -/
theorem collapseAux_space (s : GoString) (b : Bool) :
    ∀ c ∈ collapseAux b s, isReSpace c = true → c = ' ' := by
  induction s generalizing b with
  | nil => intro c hc; simp [collapseAux] at hc
  | cons x xs ih =>
    intro c hc hsp
    unfold collapseAux at hc
    by_cases hx : isReSpace x = true
    · simp only [hx, if_true] at hc
      cases b with
      | true => exact ih true c (by simpa using hc) hsp
      | false =>
        simp only [Bool.false_eq_true, if_false] at hc
        rcases List.mem_cons.mp hc with rfl | hc
        · rfl
        · exact ih true c hc hsp
    · simp only [hx, Bool.false_eq_true, if_false] at hc
      rcases List.mem_cons.mp hc with rfl | hc
      · exact absurd hsp hx
      · exact ih false c hc hsp

theorem collapseAux_true_head (s : GoString) :
    ∀ c ∈ (collapseAux true s).head?, isReSpace c = false := by
  induction s with
  | nil => intro c hc; simp [collapseAux] at hc
  | cons x xs ih =>
    intro c hc
    unfold collapseAux at hc
    by_cases hx : isReSpace x = true
    · simp only [hx, if_true] at hc
      exact ih c hc
    · simp only [hx, Bool.false_eq_true, if_false, List.head?_cons, Option.mem_def,
        Option.some.injEq] at hc
      rw [← hc]
      simpa using hx

/-- No two neighbours of a collapsed string are both spaces. -/
theorem collapseAux_chain (s : GoString) (b : Bool) :
    List.Chain' (fun x y => ¬ (x = ' ' ∧ y = ' ')) (collapseAux b s) := by
  induction s generalizing b with
  | nil => simp [collapseAux]
  | cons x xs ih =>
    unfold collapseAux
    by_cases hx : isReSpace x = true
    · simp only [hx, if_true]
      cases b with
      | true => simpa using ih true
      | false =>
        simp only [Bool.false_eq_true, if_false]
        rw [List.chain'_cons']
        refine ⟨?_, ih true⟩
        intro y hy hxy
        have := collapseAux_true_head xs y hy
        rw [hxy.2] at this
        exact absurd this (by decide)
    · simp only [hx, Bool.false_eq_true, if_false]
      rw [List.chain'_cons']
      refine ⟨?_, ih false⟩
      intro y _ hxy
      rw [hxy.1] at hx
      exact hx (by decide)

theorem collapseAux_head (s : GoString) (b : Bool) (c : Char) (h : s.head? = some c)
    (hc : isReSpace c = false) : (collapseAux b s).head? = some c := by
  cases s with
  | nil => cases h
  | cons x xs =>
    simp only [List.head?_cons, Option.some.injEq] at h
    subst h
    simp [collapseAux, hc]

theorem collapseAux_getLast (s : GoString) (b : Bool) (c : Char) (h : s.getLast? = some c)
    (hc : isReSpace c = false) : (collapseAux b s).getLast? = some c := by
  induction s generalizing b with
  | nil => cases h
  | cons x xs ih =>
    cases xs with
    | nil =>
      simp only [List.getLast?_singleton, Option.some.injEq] at h
      subst h
      simp [collapseAux, hc]
    | cons y ys =>
      rw [List.getLast?_cons_cons] at h
      have hrec : ∀ b', (collapseAux b' (y :: ys)).getLast? = some c := fun b' => ih b' h
      have hlast : ∀ (pre : GoString) b',
          (pre ++ collapseAux b' (y :: ys)).getLast? = some c := by
        intro pre b'
        rw [List.getLast?_append, hrec b']
        rfl
      unfold collapseAux
      by_cases hx : isReSpace x = true
      · simp only [hx, if_true]
        cases b with
        | true => simpa using hrec true
        | false => simpa using hlast [' '] true
      · simp only [hx, Bool.false_eq_true, if_false]
        simpa using hlast [x] false

/-- The three properties of a normalized title: no white space at either end; no
tab, CR, LF or form feed; no two consecutive spaces. -/
theorem normalized_props (content : GoString) :
    (∀ c, (collapseSpace (trimSpace content)).head? = some c → isSpace c = false) ∧
    (∀ c, (collapseSpace (trimSpace content)).getLast? = some c → isSpace c = false) ∧
    (∀ c ∈ collapseSpace (trimSpace content),
      c ≠ '\t' ∧ c ≠ '\r' ∧ c ≠ '\n' ∧ c ≠ Char.ofNat 12) ∧
    ¬ [' ', ' '] <:+: collapseSpace (trimSpace content) := by
  have hre : ∀ c, isSpace c = false → isReSpace c = false := by
    intro c hc
    cases h : isReSpace c with
    | false => rfl
    | true => rw [isSpace_of_isReSpace c h] at hc; cases hc
  refine ⟨?_, ?_, ?_, ?_⟩
  · intro c h
    cases ht : (trimSpace content).head? with
    | none =>
      have : trimSpace content = [] := by
        cases hs : trimSpace content with
        | nil => rfl
        | cons a as => rw [hs] at ht; cases ht
      rw [this] at h
      cases h
    | some x =>
      have hx := trimSpace_head content x ht
      have := collapseAux_head (trimSpace content) false x ht (hre x hx)
      unfold collapseSpace at h
      rw [this] at h
      injection h with h
      rw [← h]
      exact hx
  · intro c h
    cases ht : (trimSpace content).getLast? with
    | none =>
      have : trimSpace content = [] := by
        cases hs : trimSpace content with
        | nil => rfl
        | cons a as =>
          rw [hs] at ht
          have := List.getLast?_eq_getLast (a :: as) (by simp)
          rw [this] at ht
          cases ht
      rw [this] at h
      cases h
    | some x =>
      have hx := trimSpace_getLast content x ht
      have := collapseAux_getLast (trimSpace content) false x ht (hre x hx)
      unfold collapseSpace at h
      rw [this] at h
      injection h with h
      rw [← h]
      exact hx
  · intro c hc
    have h := collapseAux_space (trimSpace content) false c hc
    refine ⟨?_, ?_, ?_, ?_⟩ <;>
    · intro e
      rw [e] at h
      exact absurd (h (by decide)) (by decide)
  · intro hinf
    have hchain := List.Chain'.infix (collapseAux_chain (trimSpace content) false) hinf
    rw [List.chain'_cons'] at hchain
    exact hchain.1 ' ' (by simp) ⟨rfl, rfl⟩

/-! ## Title extraction: the pattern -/

theorem starGreedy_dropWhile {α : Type} (p : Char → Bool) (k : GoString → Option α)
    (hk : ∀ c cs, p c = true → k (c :: cs) = none) (s : GoString) :
    starGreedy p k s = k (s.dropWhile p) := by
  induction s with
  | nil => rfl
  | cons c cs ih =>
    by_cases hc : p c = true
    · simp only [starGreedy, hc, if_true, List.dropWhile_cons_of_pos]
      rw [ih]
      cases hr : k (List.dropWhile p cs) with
      | some r => rfl
      | none => exact hk c cs hc
    · simp only [starGreedy, hc, Bool.false_eq_true, if_false]
      rw [List.dropWhile_cons_of_neg hc]

theorem matchHere_lit (x : Char) (re : List Atom) (s : GoString) :
    matchHere (lit x :: re) s = (stripChar x s).bind (matchHere re) := by
  cases s with
  | nil => rfl
  | cons c cs =>
    by_cases h : c = x
    · simp [matchHere, lit, stripChar, h]
    · simp [matchHere, lit, stripChar, h]

theorem matchHere_ci_cons (l u : Char) (re : List Atom) (c : Char) (cs : GoString) :
    matchHere (ci l u :: re) (c :: cs) = if (c == l || c == u) = true then matchHere re cs
      else none := by
  simp [matchHere, ci]

theorem matchHere_titleWord (re : List Atom) (s : GoString) :
    matchHere (titleWord ++ re) s = (stripTitleWord s).bind (matchHere re) := by
  unfold titleWord
  simp only [List.cons_append, List.nil_append]
  rcases s with _ | ⟨a, _ | ⟨b, _ | ⟨c, _ | ⟨d, _ | ⟨e, rest⟩⟩⟩⟩⟩
  · rfl
  · simp only [matchHere_ci_cons, stripTitleWord, Option.none_bind]
    split <;> rfl
  · simp only [matchHere_ci_cons, stripTitleWord, Option.none_bind]
    split <;> [split <;> rfl; rfl]
  · simp only [matchHere_ci_cons, stripTitleWord, Option.none_bind]
    split <;> [(split <;> [split <;> rfl; rfl]); rfl]
  · simp only [matchHere_ci_cons, stripTitleWord, Option.none_bind]
    split <;> [(split <;> [(split <;> [split <;> rfl; rfl]); rfl]); rfl]
  · simp only [matchHere_ci_cons, stripTitleWord, isTitleWord]
    by_cases h1 : (a == 't' || a == 'T') = true <;>
    by_cases h2 : (b == 'i' || b == 'I') = true <;>
    by_cases h3 : (c == 't' || c == 'T') = true <;>
    by_cases h4 : (d == 'l' || d == 'L') = true <;>
    by_cases h5 : (e == 'e' || e == 'E') = true <;>
    simp [h1, h2, h3, h4, h5]

theorem stripTitleWord_space (c : Char) (cs : GoString) (h : isReSpace c = true) :
    stripTitleWord (c :: cs) = none := by
  have hc : (c == 't' || c == 'T') = false := by
    cases ht : (c == 't' || c == 'T') with
    | false => rfl
    | true =>
      simp only [Bool.or_eq_true, beq_iff_eq] at ht
      rcases ht with rfl | rfl <;> exact absurd h (by decide)
  rcases cs with _ | ⟨b, _ | ⟨c2, _ | ⟨d, _ | ⟨e, rest⟩⟩⟩⟩ <;>
    simp [stripTitleWord, isTitleWord, hc]

theorem stripChar_gt_space (c : Char) (cs : GoString) (h : isReSpace c = true) :
    stripChar '>' (c :: cs) = none := by
  have hc : c ≠ '>' := by
    rintro rfl
    exact absurd h (by decide)
  simp [stripChar, hc]

theorem stripChar_gt_other (c : Char) (cs : GoString) (h : (c != '>') = true) :
    stripChar '>' (c :: cs) = none := by
  have hc : c ≠ '>' := by simpa using h
  simp [stripChar, hc]

theorem matchHere_star (p : Char → Bool) (re : List Atom) (s : GoString) :
    matchHere (Atom.star p :: re) s = starGreedy p (matchHere re) s := by
  cases s <;> rfl

theorem matchHere_openTagRe (re : List Atom) (s : GoString) :
    matchHere (openTagRe ++ re) s = (parseOpen s).bind (matchHere re) := by
  unfold openTagRe parseOpen
  simp only [List.cons_append, List.nil_append, List.append_assoc]
  rw [matchHere_lit]
  cases h0 : stripChar '<' s with
  | none => rfl
  | some s1 =>
    simp only [Option.some_bind]
    rw [matchHere_star, starGreedy_dropWhile]
    · rw [matchHere_titleWord]
      cases h1 : stripTitleWord (List.dropWhile isReSpace s1) with
      | none => rfl
      | some s3 =>
        simp only [Option.some_bind]
        rw [matchHere_star, starGreedy_dropWhile]
        · rw [matchHere_lit]
        · intro c cs hc
          rw [matchHere_lit, stripChar_gt_other c cs hc]
          rfl
    · intro c cs hc
      rw [matchHere_titleWord, stripTitleWord_space c cs hc]
      rfl

theorem matchHere_closeTagRe (re : List Atom) (s : GoString) :
    matchHere (closeTagRe ++ re) s = (parseClose s).bind (matchHere re) := by
  unfold closeTagRe parseClose
  simp only [List.cons_append, List.nil_append, List.append_assoc]
  rw [matchHere_lit]
  cases h0 : stripChar '<' s with
  | none => rfl
  | some s0 =>
    simp only [Option.some_bind]
    rw [matchHere_lit]
    cases h00 : stripChar '/' s0 with
    | none => rfl
    | some s1 =>
      simp only [Option.some_bind]
      rw [matchHere_star, starGreedy_dropWhile]
      · rw [matchHere_titleWord]
        cases h1 : stripTitleWord (List.dropWhile isReSpace s1) with
        | none => rfl
        | some s3 =>
          simp only [Option.some_bind]
          rw [matchHere_star, starGreedy_dropWhile]
          · rw [matchHere_lit]
          · intro c cs hc
            rw [matchHere_lit, stripChar_gt_space c cs hc]
            rfl
      · intro c cs hc
        rw [matchHere_titleWord, stripTitleWord_space c cs hc]
        rfl

theorem stripChar_eq_some (x : Char) (s r : GoString) :
    stripChar x s = some r ↔ s = x :: r := by
  cases s with
  | nil => simp [stripChar]
  | cons c cs =>
    by_cases h : c = x
    · simp [stripChar, h]
    · simp [stripChar, h]

theorem isTitleWord_length (w : GoString) (h : isTitleWord w = true) : w.length = 5 := by
  rcases w with _ | ⟨a, _ | ⟨b, _ | ⟨c, _ | ⟨d, _ | ⟨e, _ | ⟨f, rest⟩⟩⟩⟩⟩⟩ <;>
    simp [isTitleWord] at h ⊢

theorem stripTitleWord_eq_some (s r : GoString) :
    stripTitleWord s = some r ↔ ∃ word, isTitleWord word = true ∧ s = word ++ r := by
  constructor
  · intro h
    rcases s with _ | ⟨a, _ | ⟨b, _ | ⟨c, _ | ⟨d, _ | ⟨e, rest⟩⟩⟩⟩⟩ <;>
      simp only [stripTitleWord] at h <;> try cases h
    by_cases hw : isTitleWord [a, b, c, d, e] = true
    · simp only [hw, if_true, Option.some.injEq] at h
      exact ⟨[a, b, c, d, e], hw, by rw [← h]; rfl⟩
    · simp [hw] at h
  · rintro ⟨word, hw, rfl⟩
    have hlen := isTitleWord_length word hw
    rcases word with _ | ⟨a, _ | ⟨b, _ | ⟨c, _ | ⟨d, _ | ⟨e, _ | ⟨f, rest⟩⟩⟩⟩⟩⟩ <;>
      simp at hlen
    simp [stripTitleWord, hw]

theorem titleWord_head_not_space (w rest : GoString) (h : isTitleWord w = true) :
    List.dropWhile isReSpace (w ++ rest) = w ++ rest := by
  cases hs : stripTitleWord (List.dropWhile isReSpace (w ++ rest)) with
  | none =>
    rcases w with _ | ⟨a, w2⟩
    · simp [isTitleWord] at h
    · by_cases ha : isReSpace a = true
      · have h1 := stripTitleWord_space a (w2 ++ rest) ha
        have h2 := (stripTitleWord_eq_some ((a :: w2) ++ rest) rest).mpr ⟨a :: w2, h, rfl⟩
        rw [List.cons_append, h1] at h2
        cases h2
      · rw [List.cons_append, List.dropWhile_cons_of_neg ha]
  | some r =>
    rcases w with _ | ⟨a, w2⟩
    · simp [isTitleWord] at h
    · by_cases ha : isReSpace a = true
      · have h1 := stripTitleWord_space a (w2 ++ rest) ha
        have h2 := (stripTitleWord_eq_some ((a :: w2) ++ rest) rest).mpr ⟨a :: w2, h, rfl⟩
        rw [List.cons_append, h1] at h2
        cases h2
      · rw [List.cons_append, List.dropWhile_cons_of_neg ha]

theorem dropWhile_run (p : Char → Bool) (run rest : GoString) (x : Char)
    (hrun : ∀ c ∈ run, p c = true) (hx : p x = false) :
    List.dropWhile p (run ++ x :: rest) = x :: rest := by
  rw [List.dropWhile_append_of_pos hrun, List.dropWhile_cons_of_neg (by simp [hx])]

theorem takeWhile_all (p : Char → Bool) (s : GoString) : ∀ c ∈ s.takeWhile p, p c = true := by
  intro c hc
  exact List.mem_takeWhile_imp hc

/-- `parseOpen` removes exactly an opening tag. -/
theorem parseOpen_eq_some (s r : GoString) :
    parseOpen s = some r ↔ ∃ tag, IsOpenTag tag ∧ s = tag ++ r := by
  unfold parseOpen
  constructor
  · intro h
    cases h0 : stripChar '<' s with
    | none => simp [h0] at h
    | some s1 =>
      simp only [h0, Option.some_bind] at h
      cases h1 : stripTitleWord (List.dropWhile isReSpace s1) with
      | none => simp [h1] at h
      | some s3 =>
        simp only [h1, Option.some_bind] at h
        obtain ⟨word, hw, hs2⟩ := (stripTitleWord_eq_some _ _).mp h1
        have hs4 := (stripChar_eq_some _ _ _).mp h
        have hs := (stripChar_eq_some _ _ _).mp h0
        refine ⟨'<' :: (s1.takeWhile isReSpace ++ (word ++
          (s3.takeWhile (fun c => c != '>') ++ ['>']))), ⟨_, _, _, rfl, ?_, hw, ?_⟩, ?_⟩
        · exact takeWhile_all _ _
        · intro hmem
          have := takeWhile_all (fun c => c != '>') s3 '>' hmem
          simp at this
        · rw [hs]
          have e1 : s1 = s1.takeWhile isReSpace ++ s1.dropWhile isReSpace :=
            (List.takeWhile_append_dropWhile _ _).symm
          have e3 : s3 = s3.takeWhile (fun c => c != '>') ++ s3.dropWhile (fun c => c != '>') :=
            (List.takeWhile_append_dropWhile _ _).symm
          rw [hs4] at e3
          rw [hs2] at e1
          conv_lhs => rw [e1, e3]
          simp [List.append_assoc]
  · rintro ⟨tag, ⟨ws, word, attrs, rfl, hws, hw, hattrs⟩, rfl⟩
    have h0 : stripChar '<' ('<' :: (ws ++ (word ++ (attrs ++ ['>']))) ++ r)
        = some (ws ++ (word ++ (attrs ++ ['>'])) ++ r) := by
      simp [stripChar]
    rw [h0]
    simp only [Option.some_bind, List.append_assoc]
    rw [List.dropWhile_append_of_pos hws, titleWord_head_not_space word _ hw]
    have h1 := (stripTitleWord_eq_some (word ++ (attrs ++ ([ '>' ] ++ r))) _).mpr
      ⟨word, hw, rfl⟩
    rw [h1]
    simp only [Option.some_bind, List.singleton_append]
    rw [dropWhile_run (fun c => c != '>') attrs r '>' (by
      intro c hc
      have : c ≠ '>' := fun e => hattrs (e ▸ hc)
      simpa using this) (by simp)]
    simp [stripChar]

/-- `parseClose` removes exactly a closing tag. -/
theorem parseClose_eq_some (s r : GoString) :
    parseClose s = some r ↔ ∃ tag, IsCloseTag tag ∧ s = tag ++ r := by
  unfold parseClose
  constructor
  · intro h
    cases h0 : stripChar '<' s with
    | none => simp [h0] at h
    | some s0 =>
      simp only [h0, Option.some_bind] at h
      cases h00 : stripChar '/' s0 with
      | none => simp [h00] at h
      | some s1 =>
        simp only [h00, Option.some_bind] at h
        cases h1 : stripTitleWord (List.dropWhile isReSpace s1) with
        | none => simp [h1] at h
        | some s3 =>
          simp only [h1, Option.some_bind] at h
          obtain ⟨word, hw, hs2⟩ := (stripTitleWord_eq_some _ _).mp h1
          have hs4 := (stripChar_eq_some _ _ _).mp h
          have hs := (stripChar_eq_some _ _ _).mp h0
          have hs0 := (stripChar_eq_some _ _ _).mp h00
          refine ⟨'<' :: '/' :: (s1.takeWhile isReSpace ++ (word ++
            (s3.takeWhile isReSpace ++ ['>']))), ⟨_, _, _, rfl, ?_, hw, ?_⟩, ?_⟩
          · exact takeWhile_all _ _
          · exact takeWhile_all _ _
          · rw [hs, hs0]
            have e1 : s1 = s1.takeWhile isReSpace ++ s1.dropWhile isReSpace :=
              (List.takeWhile_append_dropWhile _ _).symm
            have e3 : s3 = s3.takeWhile isReSpace ++ s3.dropWhile isReSpace :=
              (List.takeWhile_append_dropWhile _ _).symm
            rw [hs4] at e3
            rw [hs2] at e1
            conv_lhs => rw [e1, e3]
            simp [List.append_assoc]
  · rintro ⟨tag, ⟨ws, word, ws2, rfl, hws, hw, hws2⟩, rfl⟩
    have h0 : stripChar '<' ('<' :: '/' :: (ws ++ (word ++ (ws2 ++ ['>']))) ++ r)
        = some ('/' :: ((ws ++ (word ++ (ws2 ++ ['>']))) ++ r)) := by
      simp [stripChar]
    have h00 : stripChar '/' ('/' :: ((ws ++ (word ++ (ws2 ++ ['>']))) ++ r))
        = some ((ws ++ (word ++ (ws2 ++ ['>']))) ++ r) := by
      simp [stripChar]
    rw [h0]
    simp only [Option.some_bind]
    rw [h00]
    simp only [Option.some_bind, List.append_assoc]
    rw [List.dropWhile_append_of_pos hws, titleWord_head_not_space word _ hw]
    have h1 := (stripTitleWord_eq_some (word ++ (ws2 ++ ([ '>' ] ++ r))) _).mpr
      ⟨word, hw, rfl⟩
    rw [h1]
    simp only [Option.some_bind, List.singleton_append]
    rw [dropWhile_run isReSpace ws2 r '>' hws2 (by decide)]
    simp [stripChar]

theorem starLazyRun_some {α : Type} (k : GoString → Option α) (s : GoString) (m : α)
    (h : starLazyRun (fun _ => true) k s = some m) :
    ∃ pre t, s = pre ++ t ∧ k t = some m ∧
      ∀ pre2 t2, s = pre2 ++ t2 → pre2.length < pre.length → k t2 = none := by
  induction s with
  | nil =>
    refine ⟨[], [], rfl, h, ?_⟩
    intro pre2 t2 _ hlt
    simp at hlt
  | cons c cs ih =>
    unfold starLazyRun at h
    cases hk : k (c :: cs) with
    | some r =>
      simp only [hk, Option.some.injEq] at h
      refine ⟨[], c :: cs, rfl, by rw [hk, h], ?_⟩
      intro pre2 t2 _ hlt
      simp at hlt
    | none =>
      simp only [hk, if_true] at h
      obtain ⟨pre, t, hs, hkt, hmin⟩ := ih h
      refine ⟨c :: pre, t, by rw [hs]; rfl, hkt, ?_⟩
      intro pre2 t2 hs2 hlt
      cases pre2 with
      | nil =>
        simp only [List.nil_append] at hs2
        rw [← hs2]
        exact hk
      | cons x xs =>
        simp only [List.cons_append, List.cons.injEq] at hs2
        simp only [List.length_cons, Nat.add_lt_add_iff_right] at hlt
        exact hmin xs t2 hs2.2 hlt

theorem starLazyRun_none {α : Type} (k : GoString → Option α) (s : GoString)
    (h : starLazyRun (fun _ => true) k s = none) :
    ∀ pre t, s = pre ++ t → k t = none := by
  induction s with
  | nil =>
    intro pre t hs
    have : t = [] := by
      cases pre with
      | nil => exact hs.symm
      | cons x xs => cases hs
    rw [this]
    exact h
  | cons c cs ih =>
    unfold starLazyRun at h
    cases hk : k (c :: cs) with
    | some r => simp [hk] at h
    | none =>
      simp only [hk, if_true] at h
      intro pre t hs
      cases pre with
      | nil =>
        simp only [List.nil_append] at hs
        rw [← hs]
        exact hk
      | cons x xs =>
        simp only [List.cons_append, List.cons.injEq] at hs
        exact ih h xs t hs.2

theorem findMatch_eq_lazy (re : List Atom) (s : GoString) :
    findMatch re s = starLazyRun (fun _ => true) (matchHere re) s := by
  induction s with
  | nil => rfl
  | cons c cs ih =>
    unfold findMatch starLazyRun
    cases matchHere re (c :: cs) with
    | some m => rfl
    | none => simp [ih]

theorem matchHere_groupClose (re : List Atom) (s : GoString) :
    matchHere (Atom.groupClose :: re) s
      = (matchHere re s).map (fun m => { m with groupEnd := s }) := by
  cases s <;> rfl

theorem matchHere_groupOpen (re : List Atom) (s : GoString) :
    matchHere (Atom.groupOpen :: re) s
      = (matchHere re s).map (fun m => { m with groupStart := s }) := by
  cases s <;> rfl

theorem matchHere_starLazy (p : Char → Bool) (re : List Atom) (s : GoString) :
    matchHere (Atom.starLazy p :: re) s = starLazyRun p (matchHere re) s := by
  cases s <;> rfl

theorem matchHere_nil (s : GoString) : matchHere [] s = some ⟨[], [], s⟩ := by
  cases s <;> rfl

theorem matchHere_titleRe (s : GoString) :
    matchHere titleRe s = (parseOpen s).bind (fun s5 =>
      (starLazyRun (fun _ => true) closeAt s5).map (fun m => { m with groupStart := s5 })) := by
  unfold titleRe
  rw [List.append_assoc, matchHere_openTagRe]
  congr 1
  funext s5
  have hk : matchHere (Atom.groupClose :: closeTagRe) = closeAt := by
    funext t
    have hc : matchHere closeTagRe t = (parseClose t).bind (matchHere []) := by
      have := matchHere_closeTagRe [] t
      rwa [List.append_nil] at this
    rw [matchHere_groupClose, hc]
    unfold closeAt
    cases hp : parseClose t with
    | none => rfl
    | some r => simp [matchHere_nil]
  show matchHere (Atom.groupOpen :: Atom.starLazy (fun _ => true) ::
    Atom.groupClose :: closeTagRe) s5 = _
  rw [matchHere_groupOpen, matchHere_starLazy, hk]

theorem regionAt_iff (s content : GoString) :
    RegionAt s content ↔
      ∃ t r, parseOpen s = some (content ++ t) ∧ parseClose t = some r := by
  constructor
  · rintro ⟨otag, ctag, rest, ho, hc, rfl⟩
    exact ⟨ctag ++ rest, rest, (parseOpen_eq_some _ _).mpr ⟨otag, ho, rfl⟩,
      (parseClose_eq_some _ _).mpr ⟨ctag, hc, rfl⟩⟩
  · rintro ⟨t, r, ho, hc⟩
    obtain ⟨otag, hot, hs⟩ := (parseOpen_eq_some _ _).mp ho
    obtain ⟨ctag, hct, ht⟩ := (parseClose_eq_some _ _).mp hc
    exact ⟨otag, ctag, r, hot, hct, by rw [hs, ht]⟩

theorem closeAt_eq_some (t : GoString) (m : Match) (h : closeAt t = some m) :
    ∃ r, parseClose t = some r ∧ m = ⟨[], t, r⟩ := by
  unfold closeAt at h
  cases hp : parseClose t with
  | none => simp [hp] at h
  | some r =>
    simp only [hp, Option.map_some', Option.some.injEq] at h
    exact ⟨r, rfl, h.symm⟩

/-- A match of `titleRe` at the start of `s` captures the content of the title
region that starts `s` and ends at the first closing tag. -/
theorem matchHere_titleRe_some (s : GoString) (m : Match) (h : matchHere titleRe s = some m) :
    RegionAt s m.group1 ∧ ∀ content, RegionAt s content → m.group1.length ≤ content.length := by
  rw [matchHere_titleRe] at h
  cases ho : parseOpen s with
  | none => simp [ho] at h
  | some s5 =>
    simp only [ho, Option.some_bind] at h
    cases hl : starLazyRun (fun _ => true) closeAt s5 with
    | none => simp [hl] at h
    | some m0 =>
      simp only [hl, Option.map_some', Option.some.injEq] at h
      obtain ⟨pre, t, hs5, hkt, hmin⟩ := starLazyRun_some closeAt s5 m0 hl
      obtain ⟨r, hpc, hm0⟩ := closeAt_eq_some t m0 hkt
      have hg : m.group1 = pre := by
        rw [← h, hm0]
        unfold Match.group1
        simp only [hs5, List.length_append, Nat.add_sub_cancel]
        exact List.take_left' rfl
      rw [hg]
      constructor
      · exact (regionAt_iff s pre).mpr ⟨t, r, by rw [ho, hs5], hpc⟩
      · intro content hreg
        obtain ⟨t2, r2, ho2, hpc2⟩ := (regionAt_iff s content).mp hreg
        rw [ho] at ho2
        injection ho2 with ho2
        by_contra hlt
        have hk := hmin content t2 ho2 (by omega)
        unfold closeAt at hk
        rw [hpc2] at hk
        cases hk

theorem matchHere_titleRe_none (s : GoString) (h : matchHere titleRe s = none) :
    ∀ content, ¬ RegionAt s content := by
  intro content hreg
  obtain ⟨t, r, ho, hpc⟩ := (regionAt_iff s content).mp hreg
  rw [matchHere_titleRe, ho] at h
  simp only [Option.some_bind, Option.map_eq_none'] at h
  have hk := starLazyRun_none closeAt _ h content t rfl
  unfold closeAt at hk
  rw [hpc] at hk
  cases hk

/-- A successful search captures the content of the first title region. -/
theorem findMatch_titleRe_some (body : GoString) (m : Match)
    (h : findMatch titleRe body = some m) : FirstRegion body m.group1 := by
  rw [findMatch_eq_lazy] at h
  obtain ⟨pre, s, hb, hm, hmin⟩ := starLazyRun_some (matchHere titleRe) body m h
  obtain ⟨hreg, hshort⟩ := matchHere_titleRe_some s m hm
  refine ⟨pre, s, hb, hreg, ?_, hshort⟩
  intro pre2 s2 content2 hb2 hlt
  exact matchHere_titleRe_none s2 (hmin pre2 s2 hb2 hlt) content2

/-- A failed search means no title region starts anywhere in the body. -/
theorem findMatch_titleRe_none (body : GoString) (h : findMatch titleRe body = none) :
    ∀ pre s content, body = pre ++ s → ¬ RegionAt s content := by
  rw [findMatch_eq_lazy] at h
  intro pre s content hb
  exact matchHere_titleRe_none s (starLazyRun_none (matchHere titleRe) body h pre s hb) content

/-- The content of the first title region is unique. -/
theorem firstRegion_unique (body c1 c2 : GoString) (h1 : FirstRegion body c1)
    (h2 : FirstRegion body c2) : c1 = c2 := by
  obtain ⟨p1, s1, hb1, hr1, hl1, hs1⟩ := h1
  obtain ⟨p2, s2, hb2, hr2, hl2, hs2⟩ := h2
  have hlen : p1.length = p2.length := by
    by_contra hne
    rcases Nat.lt_or_gt_of_ne hne with hlt | hgt
    · exact hl2 p1 s1 c1 hb1 hlt hr1
    · exact hl1 p2 s2 c2 hb2 hgt hr2
  have hs : s1 = s2 := by
    have := hb1.symm.trans hb2
    exact (List.append_inj this hlen).2
  subst hs
  have hcl : c1.length = c2.length := Nat.le_antisymm (hs1 c2 hr2) (hs2 c1 hr1)
  obtain ⟨t1, _, ho1, _⟩ := (regionAt_iff s1 c1).mp hr1
  obtain ⟨t2, _, ho2, _⟩ := (regionAt_iff s1 c2).mp hr2
  rw [ho1] at ho2
  injection ho2 with ho2
  exact (List.append_inj ho2 hcl).1

theorem extractTitle_of_match (body : GoString) (m : Match)
    (h : findMatch titleRe body = some m) :
    extractTitle body = collapseSpace (trimSpace m.group1) := by
  have hne : body ≠ [] := by
    rintro rfl
    have hnil : findMatch titleRe [] = none := by decide
    rw [hnil] at h
    cases h
  unfold extractTitle
  simp only [List.length_eq_zero, hne, if_false, h]
  exact normalize_eq m.group1

theorem extractTitle_of_no_match (body : GoString) (h : findMatch titleRe body = none) :
    extractTitle body = [] := by
  unfold extractTitle
  split
  · rfl
  · simp only [h]

theorem specCollapseAux_eq (s : GoString) (b : Bool) :
    specCollapseAux isReSpace b s = collapseAux b s := by
  induction s generalizing b with
  | nil => rfl
  | cons c cs ih => simp only [specCollapseAux, collapseAux, ih]

theorem specTitle_eq (content : GoString) :
    specTitle isSpace isReSpace content = collapseSpace (trimSpace content) := by
  unfold specTitle collapseSpace
  rw [specCollapseAux_eq]
  rfl

/-- C10, as the claim states it, fails for either notion of white space the code
uses. With white space as trimming understands it, the two vertical tabs inside
the first title of `tabsInsideBody` are an inner run, yet the result keeps them
instead of one space. With white space as the class `\s`, the vertical tab that
starts the first title of `tabFirstBody` is not white space, yet the result drops
it. -/
theorem extractTitle_vertical_tab :
    FirstRegion tabsInsideBody ['a', Char.ofNat 11, Char.ofNat 11, 'b'] ∧
    extractTitle tabsInsideBody = ['a', Char.ofNat 11, Char.ofNat 11, 'b'] ∧
    specTitle isSpace isSpace ['a', Char.ofNat 11, Char.ofNat 11, 'b'] = ['a', ' ', 'b'] ∧
    extractTitle tabsInsideBody
      ≠ specTitle isSpace isSpace ['a', Char.ofNat 11, Char.ofNat 11, 'b'] ∧
    FirstRegion tabFirstBody [Char.ofNat 11, 'a'] ∧
    extractTitle tabFirstBody = ['a'] ∧
    specTitle isReSpace isReSpace [Char.ofNat 11, 'a'] = [Char.ofNat 11, 'a'] ∧
    extractTitle tabFirstBody ≠ specTitle isReSpace isReSpace [Char.ofNat 11, 'a'] := by
  refine ⟨?_, by decide, by decide, by decide, ?_, by decide, by decide, by decide⟩
  · exact findMatch_titleRe_some tabsInsideBody
      ⟨'a' :: Char.ofNat 11 :: Char.ofNat 11 :: "b</title>".toList,
        "</title>".toList, []⟩ (by decide)
  · exact findMatch_titleRe_some tabFirstBody
      ⟨Char.ofNat 11 :: "a</title>".toList, "</title>".toList, []⟩ (by decide)

/-- C10 (amended): `extractTitle` returns the content of the first title region
with white space as `strings.TrimSpace` defines it removed from both ends and
every run of characters of the class `\s` (tab, LF, form feed, CR, space)
replaced by one space; it returns the empty string when the body is empty or no
title region starts anywhere in it, and one of the two cases always holds. The
result has no white space at either end, no tab, CR, LF or form feed, and no two
consecutive spaces. -/
theorem extractTitle_spec (body : GoString) :
    (∀ content, FirstRegion body content →
      extractTitle body = specTitle isSpace isReSpace content) ∧
    ((∀ pre s content, body = pre ++ s → ¬ RegionAt s content) → extractTitle body = []) ∧
    (body = [] → extractTitle body = []) ∧
    ((∃ content, FirstRegion body content) ∨
      (∀ pre s content, body = pre ++ s → ¬ RegionAt s content)) ∧
    (∀ c, (extractTitle body).head? = some c → isSpace c = false) ∧
    (∀ c, (extractTitle body).getLast? = some c → isSpace c = false) ∧
    (∀ c ∈ extractTitle body, c ≠ '\t' ∧ c ≠ '\r' ∧ c ≠ '\n' ∧ c ≠ Char.ofNat 12) ∧
    ¬ [' ', ' '] <:+: extractTitle body := by
  cases hm : findMatch titleRe body with
  | none =>
    have hempty := extractTitle_of_no_match body hm
    have hnone := findMatch_titleRe_none body hm
    refine ⟨?_, fun _ => hempty, fun _ => hempty, Or.inr hnone, ?_, ?_, ?_, ?_⟩
    · rintro content ⟨pre, s, hb, hreg, _, _⟩
      exact absurd hreg (hnone pre s content hb)
    · intro c h
      rw [hempty] at h
      cases h
    · intro c h
      rw [hempty] at h
      cases h
    · intro c h
      rw [hempty] at h
      cases h
    · rw [hempty]
      intro h
      have := List.IsInfix.length_le h
      simp at this
  | some m =>
    have hval := extractTitle_of_match body m hm
    have hfirst := findMatch_titleRe_some body m hm
    obtain ⟨p1, p2, p3, p4⟩ := normalized_props m.group1
    rw [← hval] at p1 p2 p3 p4
    refine ⟨?_, ?_, ?_, Or.inl ⟨m.group1, hfirst⟩, p1, p2, p3, p4⟩
    · intro content hc
      rw [hval, firstRegion_unique body content m.group1 hc hfirst, specTitle_eq]
    · intro hno
      obtain ⟨pre, s, hb, hreg, _, _⟩ := hfirst
      exact absurd hreg (hno pre s m.group1 hb)
    · rintro rfl
      have hnil : findMatch titleRe [] = none := by decide
      rw [hnil] at hm
      cases hm

/-- C10 on the body of the claim, whose title is `Hello World`, and on a body
without a title region. -/
theorem extractTitle_spec_witness :
    extractTitle "<html><TITLE>  Hello\nWorld  </TITLE></html>".toList = "Hello World".toList ∧
    extractTitle "<html><p>no title</p></html>".toList = [] ∧
    extractTitle [] = [] :=
  ⟨((extractTitle_spec "<html><TITLE>  Hello\nWorld  </TITLE></html>".toList).1
      "  Hello\nWorld  ".toList
      (findMatch_titleRe_some "<html><TITLE>  Hello\nWorld  </TITLE></html>".toList
        ⟨"  Hello\nWorld  </TITLE></html>".toList, "</TITLE></html>".toList, "</html>".toList⟩
        (by decide))).trans (by decide),
   (extractTitle_spec "<html><p>no title</p></html>".toList).2.1
      (findMatch_titleRe_none "<html><p>no title</p></html>".toList (by decide)),
   (extractTitle_spec []).2.2.1 rfl⟩

end Certstream
